import Mathlib

/-!
Verification development for the kjson JSON parser (kjson.c / kjson.h).

The C code is shallowly embedded over a byte-buffer model:

* the parser's buffer `char *` is a `List Nat` of byte values (each < 256 for
  real inputs); reading at an index past the end of the list yields `0`,
  which models the NUL terminator of the C string buffer;
* the cursor `p->s` is an index into that list;
* in-place writes (the string decoder rewrites escapes in place) are modelled
  with `List.set`;
* `intmax_t`/`uintmax_t` are modelled as the usual 64-bit types of the
  platforms the code targets (`INTMAX_MAX = 2^63 - 1`, `UINTMAX_MAX = 2^64 - 1`),
  with the implementation-defined unsigned-to-signed conversion modelled as
  wrap-around, and `long` as 64-bit, `int` as 32-bit;
* `double` values are modelled as exact rationals (ℚ): `ldexp m e` becomes
  `m * 2^e` and `strtod` fraction parsing becomes exact rational arithmetic.
  IEEE rounding is not modelled; the numeric claims below are about which
  arithmetic expression the code computes, not about rounding;
* all recursive scanning loops take an explicit fuel argument (first
  parameter); the exported wrappers instantiate the fuel with a bound that is
  proved sufficient where needed.  This keeps every definition executable by
  kernel reduction.
-/

namespace Kjson

/-- Read the byte at index `i`; past the end of the buffer this yields `0`,
the NUL terminator of the C byte buffer. Models `p->s[k]` dereferences. -/
def peek (B : List Nat) (i : Nat) : Nat := B.getD i 0

/-- The JSON whitespace set used by `skip_space` (`strspn(p->s, "\t\r\n ")`):
TAB 0x09, CR 0x0D, LF 0x0A, SPACE 0x20. -/
def isWsJson (c : Nat) : Bool := c = 9 || c = 13 || c = 10 || c = 32

/-- The C locale `isspace` set used by `strtoumax`/`strtol`/`strtod`:
SPACE and 0x09–0x0D. -/
def isWsC (c : Nat) : Bool := c = 32 || (9 ≤ c && c ≤ 13)

/-- Decimal digit test. -/
def isDigit (c : Nat) : Bool := 48 ≤ c && c ≤ 57

/-- Fueled scan for `skip_space`: advance while the byte is JSON whitespace. -/
def skipSpaceF : Nat → List Nat → Nat → Nat
  | 0, _, i => i
  | f + 1, B, i => if isWsJson (peek B i) then skipSpaceF f B (i + 1) else i

/-- `skip_space`: index of the first byte at or after `i` that is not in
`"\t\r\n "`. The fuel `B.length + 1` is enough because whitespace bytes are
nonzero and hence lie inside the buffer. -/
def skipSpaceIdx (B : List Nat) (i : Nat) : Nat := skipSpaceF (B.length + 1) B i

/-- Fueled scan skipping C-locale whitespace (used inside `strtoumax` etc.). -/
def skipWsCF : Nat → List Nat → Nat → Nat
  | 0, _, i => i
  | f + 1, B, i => if isWsC (peek B i) then skipWsCF f B (i + 1) else i

/-- Index of the first byte at or after `i` that is not C whitespace. -/
def skipWsCIdx (B : List Nat) (i : Nat) : Nat := skipWsCF (B.length + 1) B i

/-- Fueled scan of a decimal digit run, accumulating its value.
Returns (value, end index). -/
def digitsRunF : Nat → List Nat → Nat → Nat → Nat × Nat
  | 0, _, i, acc => (acc, i)
  | f + 1, B, i, acc =>
    if isDigit (peek B i) then digitsRunF f B (i + 1) (acc * 10 + (peek B i - 48))
    else (acc, i)

/-- Value and end index of the decimal digit run starting at `i`. -/
def digitsRun (B : List Nat) (i : Nat) : Nat × Nat := digitsRunF (B.length + 1) B i 0

/-- `UINTMAX_MAX` on the modelled platform (64-bit `uintmax_t`). -/
def UINTMAX_MAX : Nat := 2 ^ 64 - 1

/-- `INTMAX_MAX` on the modelled platform. -/
def INTMAX_MAX : Nat := 2 ^ 63 - 1

/-- Model of `strtoumax(B + i, &end, 10)`.  Skips C whitespace, consumes an
optional sign, then a digit run.  Returns (value, end index, overflow flag):
with no digits the value is 0 and the end index is the original `i`
(`endptr = nptr`); on overflow of the 64-bit range the value is
`UINTMAX_MAX` and the flag (errno = ERANGE) is set; a `-` sign negates the
value modulo 2^64. -/
def strtoumaxAt (B : List Nat) (i : Nat) : Nat × Nat × Bool :=
  let z := skipWsCIdx B i
  let neg := peek B z = 45
  let i2 := if peek B z = 43 || peek B z = 45 then z + 1 else z
  if isDigit (peek B i2) then
    let ve := digitsRun B i2
    if ve.1 > UINTMAX_MAX then (UINTMAX_MAX, ve.2, true)
    else (if neg then (2 ^ 64 - ve.1 % 2 ^ 64) % 2 ^ 64 else ve.1, ve.2, false)
  else (0, i, false)

/-- Model of `strtol(B + i, &end, 10)` with 64-bit `long`.  Returns
(value, end index, overflow flag); the value is clamped to
`[-2^63, 2^63 - 1]` on overflow (errno = ERANGE). -/
def strtolAt (B : List Nat) (i : Nat) : Int × Nat × Bool :=
  let z := skipWsCIdx B i
  let neg := peek B z = 45
  let i2 := if peek B z = 43 || peek B z = 45 then z + 1 else z
  if isDigit (peek B i2) then
    let ve := digitsRun B i2
    if neg then
      if ve.1 > 2 ^ 63 then (-(2 ^ 63 : Int), ve.2, true)
      else (-(ve.1 : Int), ve.2, false)
    else
      if ve.1 > 2 ^ 63 - 1 then ((2 ^ 63 : Int) - 1, ve.2, true)
      else ((ve.1 : Int), ve.2, false)
  else (0, i, false)

/-- Implementation-defined conversion of a 64-bit unsigned value to
`intmax_t` (two's-complement wrap-around, as on the targeted platforms). -/
def toIntmax (v : Nat) : Int :=
  if v % 2 ^ 64 < 2 ^ 63 then (v % 2 ^ 64 : Int) else (v % 2 ^ 64 : Int) - 2 ^ 64

/-- Model of `kjson_read_integer`.  Returns (success, `*v`, new cursor).
Mirrors the C code: optional `-`; a leading `0` short-circuits; otherwise
`strtoumax` parses the magnitude; for negative numbers a magnitude above
`INTMAX_MAX` is a failure (cursor not advanced past the sign); finally the
call succeeds iff the byte at the cursor is not `'.'`. -/
def kjson_read_integer (B : List Nat) (i : Nat) : Bool × Int × Nat :=
  let pos := peek B i ≠ 45
  let i1 := if peek B i = 45 then i + 1 else i
  if peek B i1 = 48 then
    (peek B (i1 + 1) ≠ 46, 0, i1 + 1)
  else
    let vte := strtoumaxAt B i1
    if pos then (peek B vte.2.1 ≠ 46, toIntmax vte.1, vte.2.1)
    else if vte.1 > INTMAX_MAX then (false, toIntmax vte.1, i1)
    else (peek B vte.2.1 ≠ 46, -toIntmax vte.1, vte.2.1)

/-- Model of the fractional part of `strtod(B + t, &end)` as called by
`kjson_read_number` with the cursor on a byte that is `'.'` (subject
sequence `.digits[eE[sign]digits]`).  With no digit after the point there is
no conversion: value 0, end = `t`.  Returns the exact rational value. -/
def strtodFracAt (B : List Nat) (t : Nat) : ℚ × Nat :=
  if peek B t = 46 && isDigit (peek B (t + 1)) then
    let ve := digitsRun B (t + 1)
    let frac : ℚ := (ve.1 : ℚ) / (10 : ℚ) ^ (ve.2 - (t + 1))
    if peek B ve.2 = 69 || peek B ve.2 = 101 then
      let negE := peek B (ve.2 + 1) = 45
      let s1 := if peek B (ve.2 + 1) = 43 || peek B (ve.2 + 1) = 45 then ve.2 + 2 else ve.2 + 1
      if isDigit (peek B s1) then
        let ee := digitsRun B s1
        (if negE then frac / (10 : ℚ) ^ ee.1 else frac * (10 : ℚ) ^ ee.1, ee.2)
      else (frac, ve.2)
    else (frac, ve.2)
  else (0, t)

/-- `ldexp` on the exact-rational model of `double`: multiply by 2^e. -/
def ldexpQ (m : ℚ) (e : Int) : ℚ := m * (2 : ℚ) ^ e

/-- Leaf values: the tagged contents of `union kjson_leaf_raw` together with
the `enum kjson_leaf_type` tag that the parser reports with it
(null, boolean, integer, double, string slice (begin index, length)). -/
inductive KLeaf : Type
  | nul : KLeaf
  | bool : Bool → KLeaf
  | int : Int → KLeaf
  | dbl : ℚ → KLeaf
  | str : Nat → Nat → KLeaf
deriving DecidableEq

/-- Model of `kjson_read_number`.  Returns the classified leaf and the new
cursor, or `none` for a negative return value.  Mirrors the C code: optional
sign, `strtoumax` magnitude (failure when nothing was consumed or on
ERANGE overflow at `UINTMAX_MAX`), then fraction (`'.'`, via `strtod`,
classified double), exponent (`'E'`/`'e'`, via `strtol` and base-2 `ldexp`,
classified double), or integer with the negative-overflow check. -/
def kjson_read_number (B : List Nat) (i : Nat) : Option (KLeaf × Nat) :=
  let pos := peek B i ≠ 45
  let i1 := if peek B i = 45 then i + 1 else i
  let vte := strtoumaxAt B i1
  let v := vte.1
  let t := vte.2.1
  if t = i1 || (v = UINTMAX_MAX && vte.2.2) then none
  else if peek B t = 46 then
    let fe := strtodFracAt B t
    let frac : ℚ := (v : ℚ) + fe.1
    some (.dbl (if pos then frac else -frac), fe.2)
  else if peek B t = 69 || peek B t = 101 then
    let ee := strtolAt B (t + 1)
    if ee.2.2 && (ee.1 ≤ -(2 ^ 31 : Int) || ee.1 ≥ 2 ^ 31 - 1) then none
    else some (.dbl (ldexpQ (if pos then (v : ℚ) else -(v : ℚ)) ee.1), ee.2.1)
  else
    if pos then some (.int (toIntmax v), t)
    else if v > INTMAX_MAX then none
    else some (.int (-(v : Int)), t)

/-- Hex digit value, as in the loop body of `hex4`. -/
def hexDigitVal (c : Nat) : Option Nat :=
  if 48 ≤ c && c ≤ 57 then some (c - 48)
  else if 65 ≤ c && c ≤ 70 then some (10 + (c - 65))
  else if 97 ≤ c && c ≤ 102 then some (10 + (c - 97))
  else none

/-- Model of `hex4`: decode the first four bytes of `l` as a 16-bit hex
value (missing bytes read as NUL and fail). -/
def hex4 (l : List Nat) : Option Nat :=
  match hexDigitVal (l.getD 0 0) with
  | none => none
  | some a =>
    match hexDigitVal (l.getD 1 0) with
    | none => none
    | some b =>
      match hexDigitVal (l.getD 2 0) with
      | none => none
      | some c =>
        match hexDigitVal (l.getD 3 0) with
        | none => none
        | some d => some (((a * 16 + b) * 16 + c) * 16 + d)

/-- Single-character escape substitutions: `str_pat` maps to `str_subst1`
("\"\\/bfnrtu" to `"\"\\/\b\f\n\r\t"`). -/
def escSubst1 (c : Nat) : Option Nat :=
  if c = 34 then some 34        -- '"'
  else if c = 92 then some 92   -- backslash
  else if c = 47 then some 47   -- '/'
  else if c = 98 then some 8    -- 'b' -> BS
  else if c = 102 then some 12  -- 'f' -> FF
  else if c = 110 then some 10  -- 'n' -> LF
  else if c = 114 then some 13  -- 'r' -> CR
  else if c = 116 then some 9   -- 't' -> TAB
  else none

/-- Model of `escaped`, entered with `l` being the buffer suffix just past
the backslash.  Returns the bytes written through the write pointer and the
number of source bytes consumed.  `strchr(str_pat, 0)` finds the pattern
terminator, so a NUL escape character also enters the `\\u` branch (where
`hex4` then fails on real inputs); this mirrors the C exactly.  The
surrogate-value masks `uni & ~0xdc00` appear as `&&& 0xffff23ff` (32-bit
`unsigned` complement of 0xdc00). -/
def escaped (l : List Nat) : Option (List Nat × Nat) :=
  let c := l.getD 0 0
  match escSubst1 c with
  | some b => some ([b], 1)
  | none =>
    if c = 117 || c = 0 then
      match hex4 (l.drop 1) with
      | none => none
      | some uni =>
        if uni < 128 then some ([uni], 5)
        else if uni < 2048 then
          some ([192 ||| uni >>> 6, 128 ||| (uni &&& 63)], 5)
        else if uni < 55296 || 57344 ≤ uni then
          some ([224 ||| uni >>> 12, 128 ||| ((uni >>> 6) &&& 63), 128 ||| (uni &&& 63)], 5)
        else if uni < 56320 then
          -- hi surrogate: require "\uYYYY" with a lo surrogate next
          if l.getD 5 0 = 92 && l.getD 6 0 = 117 then
            match hex4 (l.drop 7) with
            | none => none
            | some lo =>
              if 56320 ≤ lo && lo < 57344 then
                let v := ((uni &&& 0xffff23ff) <<< 10 ||| (lo &&& 0xffff23ff)) + 65536
                some ([240 ||| v >>> 18, 128 ||| ((v >>> 12) &&& 63),
                       128 ||| ((v >>> 6) &&& 63), 128 ||| (v &&& 63)], 11)
              else none
          else none
        else none  -- lo surrogate first
    else none

/-- Write the bytes `bs` into the buffer starting at index `w`
(sequential `*(*r)++ = b` stores). -/
def writeList (B : List Nat) (w : Nat) : List Nat → List Nat
  | [] => B
  | b :: bs => writeList (B.set w b) (w + 1) bs

/-- Fueled phase-1 scan of `kjson_read_string_utf8` (the byte-wise search
loop): find the first `'"'` or `'\\'`; fail on a byte ≤ 0x1F (which
includes the NUL terminator). -/
def scan1F : Nat → List Nat → Nat → Option Nat
  | 0, _, _ => none
  | f + 1, B, j =>
    let c := peek B j
    if c = 34 || c = 92 then some j
    else if c ≤ 31 then none
    else scan1F f B (j + 1)

/-- Fueled phase-2 loop of `kjson_read_string_utf8` (the rewrite loop):
`r` is the read cursor, `w` the write cursor (`end`).  On the closing quote
a NUL is stored at `w`; control bytes fail; a backslash dispatches to
`escaped`; other bytes are copied (only when the cursors differ).
Returns (buffer, final write cursor, cursor past the quote). -/
def phase2F : Nat → List Nat → Nat → Nat → Option (List Nat × Nat × Nat)
  | 0, _, _, _ => none
  | f + 1, B, r, w =>
    let c := peek B r
    if c = 34 then some (B.set w 0, w, r + 1)
    else if c ≤ 31 then none
    else if c = 92 then
      match escaped (B.drop (r + 1)) with
      | none => none
      | some (bs, n) => phase2F f (writeList B w bs) (r + 1 + n) (w + bs.length)
    else phase2F f (if w = r then B else B.set w c) (r + 1) (w + 1)

/-- The body of `kjson_read_string_utf8` after the opening quote:
phase-1 scan from `bg`, then the phase-2 rewrite from the first special
byte.  Returns (buffer, final write cursor, cursor past closing quote). -/
def strBody (B : List Nat) (bg : Nat) : Option (List Nat × Nat × Nat) :=
  match scan1F (B.length + 1) B bg with
  | none => none
  | some j => phase2F (B.length + 1) B j j

/-- Model of `kjson_read_string_utf8`.  On success returns
(buffer, `*begin`, `*len`, new cursor). -/
def kjson_read_string_utf8 (B : List Nat) (i : Nat) :
    Option (List Nat × Nat × Nat × Nat) :=
  if peek B i = 34 then
    match strBody B (i + 1) with
    | none => none
    | some (B2, w2, r2) => some (B2, i + 1, w2 - (i + 1), r2)
  else none

/-- Specification-side pure string decoder: decodes the byte list following
the opening quote into the decoded bytes and the rest of the input after the
closing quote.  This is the functional reading of the two scanning loops;
the in-place `kjson_read_string_utf8` is proved to refine it. -/
def decodeStrF : Nat → List Nat → Option (List Nat × List Nat)
  | 0, _ => none
  | f + 1, l =>
    match l with
    | [] => none
    | c :: rest =>
      if c = 34 then some ([], rest)
      else if c ≤ 31 then none
      else if c = 92 then
        match escaped rest with
        | none => none
        | some (bs, n) =>
          (decodeStrF f (rest.drop n)).map fun p => (bs ++ p.1, p.2)
      else (decodeStrF f rest).map fun p => (c :: p.1, p.2)

/-- Pure string decoder with canonical fuel. -/
def decodeStr (l : List Nat) : Option (List Nat × List Nat) :=
  decodeStrF (l.length + 1) l

/-- A byte the string scanner passes over: not a quote, not a backslash,
not a control byte. -/
def plainByte (c : Nat) : Bool := !(c = 34) && !(c = 92) && 31 < c

/-- One 8-bit lane of the SWAR zero-byte test from the fast path
(`((x - ones) & ~x) & high_bits`, the glibc memchr trick), with the
subtraction taken modulo 256 as it is within a lane without borrow. -/
def swarZeroLane (v : Nat) : Bool := ((v + 255) % 256) &&& (v ^^^ 255) &&& 128 ≠ 0

/-- One lane of the quote/backslash detector of the word-at-a-time search:
a lane hits iff `x ^ '"'` or `x ^ '\\'` has a zero lane. -/
def swarEscLane (b : Nat) : Bool := swarZeroLane (b ^^^ 34) || swarZeroLane (b ^^^ 92)

/-- One lane of the control-byte detector of the word-at-a-time search:
mask off the low five bits (`x & ~0x1f`) and look for a zero lane. -/
def swarCtrlLane (b : Nat) : Bool := swarZeroLane (b &&& 224)

/-- `strncmp(p->s + i, pat, pat.length) == 0` for a NUL-free pattern. -/
def matchesAt (B : List Nat) (i : Nat) : List Nat → Bool
  | [] => true
  | c :: cs => peek B i = c && matchesAt B (i + 1) cs

end Kjson

namespace Kjson

/-- Callback events of the mid-level interface, in emission order:
`leaf`, `begin(in_array)`, `a_entry`, `o_entry(key slice)`, `end(in_array)`. -/
inductive KEvent : Type
  | leaf : KLeaf → KEvent
  | cbegin : Bool → KEvent
  | aEntry : KEvent
  | oEntry : Nat → Nat → KEvent
  | cend : Bool → KEvent
deriving DecidableEq

/-- Model of `kjson_parse_leaf` with the default number policy
(`read_other = NULL`, hence `kjson_read_number`): string, `null`, `true`,
`false`, otherwise number.  Returns (leaf, buffer, new cursor). -/
def kjson_parse_leaf (B : List Nat) (i : Nat) : Option (KLeaf × List Nat × Nat) :=
  if peek B i = 34 then
    match kjson_read_string_utf8 B i with
    | none => none
    | some (B2, bg, len, j) => some (.str bg len, B2, j)
  else if matchesAt B i [110, 117, 108, 108] then some (.nul, B, i + 4)
  else if matchesAt B i [116, 114, 117, 101] then some (.bool true, B, i + 4)
  else if matchesAt B i [102, 97, 108, 115, 101] then some (.bool false, B, i + 5)
  else
    match kjson_read_number B i with
    | none => none
    | some (l, j) => some (l, B, j)

/-- Parse modes of the recursive parser: a value, the array-element loop, or
the object-member loop of `kjson_parse_mid_rec`. -/
inductive Mode : Type
  | val : Mode
  | arr : Mode
  | obj : Mode
deriving DecidableEq

/-- Fueled model of `kjson_parse_mid_rec` (mode `.val`) together with its two
internal `while (1)` loops (modes `.arr`, `.obj`), which enter positioned at
the start of an element (after `skip_space`).  Returns the emitted event
trace, the (possibly rewritten) buffer and the new cursor. -/
def recF : Nat → Mode → List Nat → Nat → Option (List KEvent × List Nat × Nat)
  | 0, _, _, _ => none
  | f + 1, .val, B, i =>
    if peek B i = 91 then
      let j := skipSpaceIdx B (i + 1)
      if peek B j = 93 then some ([.cbegin true, .cend true], B, j + 1)
      else (recF f .arr B j).map fun r => (.cbegin true :: r.1, r.2)
    else if peek B i = 123 then
      let j := skipSpaceIdx B (i + 1)
      if peek B j = 125 then some ([.cbegin false, .cend false], B, j + 1)
      else (recF f .obj B j).map fun r => (.cbegin false :: r.1, r.2)
    else
      match kjson_parse_leaf B i with
      | none => none
      | some (l, B2, j) => some ([.leaf l], B2, j)
  | f + 1, .arr, B, j =>
    match recF f .val B j with
    | none => none
    | some (ev, B1, m) =>
      let n := skipSpaceIdx B1 m
      if peek B1 n = 44 then
        (recF f .arr B1 (skipSpaceIdx B1 (n + 1))).map fun r =>
          (.aEntry :: ev ++ r.1, r.2)
      else if peek B1 n = 93 then some (.aEntry :: ev ++ [.cend true], B1, n + 1)
      else none
  | f + 1, .obj, B, j =>
    match kjson_read_string_utf8 B j with
    | none => none
    | some (B1, kb, kl, m) =>
      let n := skipSpaceIdx B1 m
      if peek B1 n = 58 then
        let q := skipSpaceIdx B1 (n + 1)
        match recF f .val B1 q with
        | none => none
        | some (ev, B2, r) =>
          let s := skipSpaceIdx B2 r
          if peek B2 s = 44 then
            (recF f .obj B2 (skipSpaceIdx B2 (s + 1))).map fun p =>
              (.oEntry kb kl :: ev ++ p.1, p.2)
          else if peek B2 s = 125 then
            some (.oEntry kb kl :: ev ++ [.cend false], B2, s + 1)
          else none
      else none

/-- `kjson_parse_mid_rec` with the default number policy.  The fuel
`2 * B.length + 2` bounds the depth of the (mutual) call chain, which
advances the cursor at least once every two calls. -/
def kjson_parse_mid_rec (B : List Nat) (i : Nat) :
    Option (List KEvent × List Nat × Nat) :=
  recF (2 * B.length + 2) .val B i

/-- The inner `while (depth && (skip_space(p), *p->s != ','))` close loop of
`kjson_parse_mid2`: close as many composites as end here, stopping at a
comma or at depth 0.  Returns (end events, new cursor, new depth);
structural recursion on the depth. -/
def mid2close (B : List Nat) : Nat → Nat → Option (List KEvent × Nat × Nat)
  | i, 0 => some ([], i, 0)
  | i, d + 1 =>
    let n := skipSpaceIdx B i
    if peek B n = 44 then some ([], n, d + 1)
    else if peek B n = 93 then
      (mid2close B (n + 1) d).map fun p => (.cend true :: p.1, p.2)
    else if peek B n = 125 then
      (mid2close B (n + 1) d).map fun p => (.cend false :: p.1, p.2)
    else none

/-- Phases of the stackless parser loop: `.loop pend` is the top of a
`while (1)` iteration (with `pend` the pending string of `leaf_have_str`);
`.after kia aoFst` is the part of the iteration after the token was
consumed (`kia` = `known_in_arr`, `aoFst` = `ao_fst`). -/
inductive Ph : Type
  | loop : Option (Nat × Nat) → Ph
  | after : Bool → Bool → Ph

/-- Fueled model of the `kjson_parse_mid2` loop.  One loop iteration of the
C code is a `.loop` step (deliver the pending string / open a composite /
parse a leaf) followed by an `.after` step (close-loop, depth test, comma,
and the array/object entry decision).  Returns (events, buffer, cursor). -/
def mid2F : Nat → Ph → List Nat → Nat → Nat → Option (List KEvent × List Nat × Nat)
  | 0, _, _, _, _ => none
  | f + 1, .loop pend, B, i, d =>
    match pend with
    | some s =>
      (mid2F f (.after true false) B i d).map fun r =>
        (.leaf (.str s.1 s.2) :: r.1, r.2)
    | none =>
      let fst := peek B i
      if fst = 91 || fst = 123 then
        let isArr := fst = 91
        let j := skipSpaceIdx B (i + 1)
        if peek B j = fst + 2 then
          (mid2F f (.after false false) B (skipSpaceIdx B (j + 1)) d).map fun r =>
            (.cbegin isArr :: .cend isArr :: r.1, r.2)
        else
          (mid2F f (.after isArr true) B j (d + 1)).map fun r =>
            (.cbegin isArr :: r.1, r.2)
      else
        match kjson_parse_leaf B i with
        | none => none
        | some (l, B1, i1) =>
          (mid2F f (.after false false) B1 i1 d).map fun r =>
            (.leaf l :: r.1, r.2)
  | f + 1, .after kia aoFst, B, i, d =>
    match (if aoFst then some ([], i, d) else mid2close B i d) with
    | none => none
    | some (ev2, i2, d2) =>
      if d2 = 0 then some (ev2, B, i2)
      else
        match (if aoFst then some i2
               else if peek B i2 = 44 then some (skipSpaceIdx B (i2 + 1))
               else none) with
        | none => none
        | some i3 =>
          let kia2 := kia && ev2.isEmpty
          if kia2 || !(peek B i3 = 34 : Bool) then
            (mid2F f (.loop none) B i3 d2).map fun r =>
              (ev2 ++ .aEntry :: r.1, r.2)
          else
            match kjson_read_string_utf8 B i3 with
            | none => none
            | some (B2, sb, sl, m) =>
              let n2 := skipSpaceIdx B2 m
              if peek B2 n2 = 58 then
                (mid2F f (.loop none) B2 (skipSpaceIdx B2 (n2 + 1)) d2).map fun r =>
                  (ev2 ++ .oEntry sb sl :: r.1, r.2)
              else
                (mid2F f (.loop (some (sb, sl))) B2 n2 d2).map fun r =>
                  (ev2 ++ .aEntry :: r.1, r.2)

/-- `kjson_parse_mid2` (and hence `kjson_parse_mid`) with the default number
policy, starting with depth 0 and no pending string. -/
def kjson_parse_mid2 (B : List Nat) (i : Nat) :
    Option (List KEvent × List Nat × Nat) :=
  mid2F (4 * B.length + 8) (.loop none) B i 0

end Kjson

namespace Kjson

/-! ### Basic buffer lemmas -/

theorem peek_eq_getElem? (B : List Nat) (i : Nat) : peek B i = (B[i]?).getD 0 := by
  simp [peek]

theorem peek_lt_length {B : List Nat} {i : Nat} (h : peek B i ≠ 0) : i < B.length := by
  by_contra hlt
  apply h
  simp only [peek_eq_getElem?]
  rw [List.getElem?_eq_none (by omega)]
  rfl

theorem peek_set_ne {B : List Nat} {m x : Nat} (a : Nat) (h : m ≠ x) :
    peek (B.set m a) x = peek B x := by
  simp only [peek_eq_getElem?, List.getElem?_set_ne h]

theorem peek_set_self {B : List Nat} {m : Nat} (a : Nat) (h : m < B.length) :
    peek (B.set m a) m = a := by
  simp only [peek_eq_getElem?, List.getElem?_set_self h]
  rfl

theorem peek_drop (B : List Nat) (a x : Nat) : peek (B.drop a) x = peek B (a + x) := by
  simp only [peek_eq_getElem?, List.getElem?_drop]

theorem drop_cons_facts {B : List Nat} {r : Nat} {c : Nat} {rest : List Nat}
    (h : B.drop r = c :: rest) :
    peek B r = c ∧ B.drop (r + 1) = rest ∧ r < B.length := by
  have h0 : (B.drop r)[0]? = some c := by rw [h]; simp
  rw [List.getElem?_drop] at h0
  have hlen : r < B.length := by
    by_contra hge
    rw [List.getElem?_eq_none (by omega)] at h0
    exact Option.noConfusion h0
  refine ⟨?_, ?_, hlen⟩
  · simp only [peek_eq_getElem?]
    have : B[r]? = some c := by simpa using h0
    simp [this]
  · have : B.drop (r + 1) = (B.drop r).drop 1 := by rw [List.drop_drop]
    rw [this, h]
    rfl

theorem peek_of_drop_nil {B : List Nat} {r : Nat} (h : B.drop r = []) : peek B r = 0 := by
  have : B.length ≤ r := List.drop_eq_nil_iff.mp h
  simp only [peek_eq_getElem?]
  rw [List.getElem?_eq_none this]
  rfl

theorem drop_cases (B : List Nat) (r : Nat) :
    (B.drop r = [] ∧ peek B r = 0) ∨
    ∃ rest, B.drop r = peek B r :: rest ∧ B.drop (r + 1) = rest ∧ r < B.length := by
  cases hd : B.drop r with
  | nil => exact Or.inl ⟨rfl, peek_of_drop_nil hd⟩
  | cons c rest =>
    obtain ⟨h1, h2, h3⟩ := drop_cons_facts hd
    refine Or.inr ⟨rest, ?_, h2, h3⟩
    rw [h1]

/-! ### writeList lemmas -/

theorem writeList_length (bs : List Nat) : ∀ (B : List Nat) (w : Nat),
    (writeList B w bs).length = B.length := by
  induction bs with
  | nil => intro B w; rfl
  | cons b bs ih => intro B w; rw [writeList, ih, List.length_set]

theorem writeList_peek_lt (bs : List Nat) : ∀ (B : List Nat) (w x : Nat), x < w →
    peek (writeList B w bs) x = peek B x := by
  induction bs with
  | nil => intro B w x _; rfl
  | cons b bs ih =>
    intro B w x hx
    rw [writeList, ih _ _ _ (by omega), peek_set_ne _ (by omega)]

theorem writeList_peek_ge (bs : List Nat) : ∀ (B : List Nat) (w x : Nat),
    w + bs.length ≤ x → peek (writeList B w bs) x = peek B x := by
  induction bs with
  | nil => intro B w x _; rfl
  | cons b bs ih =>
    intro B w x hx
    simp only [List.length_cons] at hx
    rw [writeList, ih _ _ _ (by omega), peek_set_ne _ (by omega)]

theorem writeList_drop (bs : List Nat) : ∀ (B : List Nat) (w t : Nat),
    w + bs.length ≤ t → (writeList B w bs).drop t = B.drop t := by
  induction bs with
  | nil => intro B w t _; rfl
  | cons b bs ih =>
    intro B w t ht
    simp only [List.length_cons] at ht
    rw [writeList, ih _ _ _ (by omega), List.drop_set_of_lt _ _ (by omega)]

theorem writeList_peek_mid (bs : List Nat) : ∀ (B : List Nat) (w k : Nat),
    k < bs.length → w + k < B.length →
    peek (writeList B w bs) (w + k) = bs.getD k 0 := by
  induction bs with
  | nil => intro B w k hk _; simp at hk
  | cons b bs ih =>
    intro B w k hk hwk
    match k with
    | 0 =>
      rw [writeList]
      rw [writeList_peek_lt bs _ _ _ (by omega)]
      simpa using peek_set_self b (by omega)
    | k + 1 =>
      rw [writeList]
      have := ih (B.set w b) (w + 1) k (by simpa using Nat.lt_of_succ_lt_succ hk)
        (by simp only [List.length_set]; omega)
      rw [show w + (k + 1) = w + 1 + k by omega]
      simpa using this

/-! ### skip_space and digit-run characterizations -/

theorem skipSpaceF_ge : ∀ (f : Nat) (B : List Nat) (i : Nat), i ≤ skipSpaceF f B i := by
  intro f
  induction f with
  | zero => intro B i; exact Nat.le_refl i
  | succ f ih =>
    intro B i
    rw [skipSpaceF]
    by_cases h : isWsJson (peek B i)
    · simp only [h, if_true]; exact Nat.le_trans (Nat.le_succ i) (ih B (i + 1))
    · simp [h]

theorem skipSpaceF_spec : ∀ (f : Nat) (B : List Nat) (i : Nat),
    B.length + 1 ≤ f + i →
    ¬ isWsJson (peek B (skipSpaceF f B i)) = true ∧
    (i ≤ B.length → skipSpaceF f B i ≤ B.length) := by
  intro f
  induction f with
  | zero =>
    intro B i hf
    rw [skipSpaceF]
    constructor
    · intro hw
      have : peek B i ≠ 0 := by
        intro h0; rw [h0] at hw; simp [isWsJson] at hw
      have := peek_lt_length this
      omega
    · intro h; omega
  | succ f ih =>
    intro B i hf
    rw [skipSpaceF]
    by_cases h : isWsJson (peek B i)
    · have hnz : peek B i ≠ 0 := by
        intro h0; rw [h0] at h; simp [isWsJson] at h
      have hlt := peek_lt_length hnz
      simp only [h, if_true]
      have := ih B (i + 1) (by omega)
      exact ⟨this.1, fun _ => this.2 (by omega)⟩
    · simp only [h, if_false]
      exact ⟨by simp [h], fun hi => hi⟩

theorem skipSpaceIdx_not_ws (B : List Nat) (i : Nat) :
    ¬ isWsJson (peek B (skipSpaceIdx B i)) = true :=
  (skipSpaceF_spec (B.length + 1) B i (by omega)).1

theorem skipSpaceIdx_ge (B : List Nat) (i : Nat) : i ≤ skipSpaceIdx B i :=
  skipSpaceF_ge _ B i

theorem skipSpaceIdx_le_length {B : List Nat} {i : Nat} (h : i ≤ B.length) :
    skipSpaceIdx B i ≤ B.length :=
  (skipSpaceF_spec (B.length + 1) B i (by omega)).2 h

theorem skipSpaceIdx_of_not_ws {B : List Nat} {i : Nat}
    (h : ¬ isWsJson (peek B i) = true) : skipSpaceIdx B i = i := by
  rw [skipSpaceIdx, skipSpaceF]
  simp [h]

theorem skipSpaceIdx_idem (B : List Nat) (i : Nat) :
    skipSpaceIdx B (skipSpaceIdx B i) = skipSpaceIdx B i :=
  skipSpaceIdx_of_not_ws (skipSpaceIdx_not_ws B i)

end Kjson

namespace Kjson

theorem skipWsCF_ge : ∀ (f : Nat) (B : List Nat) (i : Nat), i ≤ skipWsCF f B i := by
  intro f
  induction f with
  | zero => intro B i; exact Nat.le_refl i
  | succ f ih =>
    intro B i
    rw [skipWsCF]
    by_cases h : isWsC (peek B i)
    · simp only [h, if_true]; exact Nat.le_trans (Nat.le_succ i) (ih B (i + 1))
    · simp [h]

theorem skipWsCF_spec : ∀ (f : Nat) (B : List Nat) (i : Nat),
    B.length + 1 ≤ f + i →
    ¬ isWsC (peek B (skipWsCF f B i)) = true ∧
    (i ≤ B.length → skipWsCF f B i ≤ B.length) := by
  intro f
  induction f with
  | zero =>
    intro B i hf
    rw [skipWsCF]
    constructor
    · intro hw
      have : peek B i ≠ 0 := by
        intro h0; rw [h0] at hw; simp [isWsC] at hw
      have := peek_lt_length this
      omega
    · intro h; omega
  | succ f ih =>
    intro B i hf
    rw [skipWsCF]
    by_cases h : isWsC (peek B i)
    · have hnz : peek B i ≠ 0 := by
        intro h0; rw [h0] at h; simp [isWsC] at h
      have hlt := peek_lt_length hnz
      simp only [h, if_true]
      have := ih B (i + 1) (by omega)
      exact ⟨this.1, fun _ => this.2 (by omega)⟩
    · simp only [h, if_false]
      exact ⟨by simp [h], fun hi => hi⟩

theorem skipWsCIdx_ge (B : List Nat) (i : Nat) : i ≤ skipWsCIdx B i :=
  skipWsCF_ge _ B i

theorem skipWsCIdx_not_ws (B : List Nat) (i : Nat) :
    ¬ isWsC (peek B (skipWsCIdx B i)) = true :=
  (skipWsCF_spec (B.length + 1) B i (by omega)).1

theorem skipWsCIdx_le_length {B : List Nat} {i : Nat} (h : i ≤ B.length) :
    skipWsCIdx B i ≤ B.length :=
  (skipWsCF_spec (B.length + 1) B i (by omega)).2 h

theorem skipWsCIdx_of_not_ws {B : List Nat} {i : Nat}
    (h : ¬ isWsC (peek B i) = true) : skipWsCIdx B i = i := by
  rw [skipWsCIdx, skipWsCF]
  simp [h]

theorem digitsRunF_ge : ∀ (f : Nat) (B : List Nat) (i acc : Nat),
    i ≤ (digitsRunF f B i acc).2 := by
  intro f
  induction f with
  | zero => intro B i acc; exact Nat.le_refl i
  | succ f ih =>
    intro B i acc
    rw [digitsRunF]
    by_cases h : isDigit (peek B i)
    · simp only [h, if_true]
      exact Nat.le_trans (Nat.le_succ i) (ih B (i + 1) _)
    · simp [h]

theorem digitsRunF_spec : ∀ (f : Nat) (B : List Nat) (i acc : Nat),
    B.length + 1 ≤ f + i →
    ¬ isDigit (peek B (digitsRunF f B i acc).2) = true ∧
    (i ≤ B.length → (digitsRunF f B i acc).2 ≤ B.length) ∧
    (i < (digitsRunF f B i acc).2 → isDigit (peek B ((digitsRunF f B i acc).2 - 1)) = true) := by
  intro f
  induction f with
  | zero =>
    intro B i acc hf
    rw [digitsRunF]
    refine ⟨?_, ?_, ?_⟩
    · intro hw
      have : peek B i ≠ 0 := by
        intro h0; rw [h0] at hw; simp [isDigit] at hw
      have := peek_lt_length this
      simp only [] at hw ⊢
      omega
    · intro h; exact h
    · intro h; exact absurd h (by omega)
  | succ f ih =>
    intro B i acc hf
    rw [digitsRunF]
    by_cases h : isDigit (peek B i)
    · have hnz : peek B i ≠ 0 := by
        intro h0; rw [h0] at h; simp [isDigit] at h
      have hlt := peek_lt_length hnz
      rw [if_pos h]
      have hrec := ih B (i + 1) (acc * 10 + (peek B i - 48)) (by omega)
      have hge := digitsRunF_ge f B (i + 1) (acc * 10 + (peek B i - 48))
      refine ⟨hrec.1, fun _ => hrec.2.1 (by omega), fun _ => ?_⟩
      by_cases he : i + 1 < (digitsRunF f B (i + 1) (acc * 10 + (peek B i - 48))).2
      · exact hrec.2.2 he
      · have heq : (digitsRunF f B (i + 1) (acc * 10 + (peek B i - 48))).2 = i + 1 := by omega
        rw [heq]
        simpa using h
    · rw [if_neg h]
      exact ⟨by simpa using h, fun hi => hi, fun hlt => absurd hlt (Nat.lt_irrefl i)⟩

theorem digitsRun_spec (B : List Nat) (i : Nat) :
    ¬ isDigit (peek B (digitsRun B i).2) = true ∧
    (i ≤ B.length → (digitsRun B i).2 ≤ B.length) ∧
    (i < (digitsRun B i).2 → isDigit (peek B ((digitsRun B i).2 - 1)) = true) :=
  digitsRunF_spec (B.length + 1) B i 0 (by omega)

theorem digitsRun_ge (B : List Nat) (i : Nat) : i ≤ (digitsRun B i).2 :=
  digitsRunF_ge _ B i 0

end Kjson

namespace Kjson

/-! ### `escaped` facts -/

theorem hexDigitVal_ne_zero {c v : Nat} (h : hexDigitVal c = some v) : c ≠ 0 := by
  intro h0
  rw [h0] at h
  simp [hexDigitVal] at h

theorem hex4_length {l : List Nat} {u : Nat} (h : hex4 l = some u) : 4 ≤ l.length := by
  rw [hex4] at h
  cases h0 : hexDigitVal (l.getD 0 0) with
  | none => rw [h0] at h; exact Option.noConfusion h
  | some a =>
    rw [h0] at h
    cases h1 : hexDigitVal (l.getD 1 0) with
    | none => rw [h1] at h; exact Option.noConfusion h
    | some b =>
      rw [h1] at h
      cases h2 : hexDigitVal (l.getD 2 0) with
      | none => rw [h2] at h; exact Option.noConfusion h
      | some c =>
        rw [h2] at h
        cases h3 : hexDigitVal (l.getD 3 0) with
        | none => rw [h3] at h; exact Option.noConfusion h
        | some d =>
          have hp : peek l 3 ≠ 0 := by
            simpa [peek] using hexDigitVal_ne_zero h3
          have := peek_lt_length hp
          omega

theorem escSubst1_ne_zero {c b : Nat} (h : escSubst1 c = some b) : c ≠ 0 := by
  intro h0
  rw [h0] at h
  simp [escSubst1] at h

theorem escaped_facts {l : List Nat} {bs : List Nat} {n : Nat}
    (h : escaped l = some (bs, n)) :
    1 ≤ bs.length ∧ bs.length ≤ n ∧ 1 ≤ n ∧ n ≤ l.length := by
  rw [escaped] at h
  split at h
  next b hs =>
    have hc : peek l 0 ≠ 0 := escSubst1_ne_zero hs
    have := peek_lt_length hc
    simp only [Option.some.injEq, Prod.mk.injEq] at h
    obtain ⟨hbs, hn⟩ := h
    simp [← hbs, ← hn]
    omega
  next hs =>
    split at h
    · split at h
      next => exact Option.noConfusion h
      next uni h4 =>
        have hl4 : 4 ≤ (l.drop 1).length := hex4_length h4
        rw [List.length_drop] at hl4
        split at h
        · simp only [Option.some.injEq, Prod.mk.injEq] at h
          obtain ⟨hbs, hn⟩ := h
          simp [← hbs, ← hn]
          omega
        · split at h
          · simp only [Option.some.injEq, Prod.mk.injEq] at h
            obtain ⟨hbs, hn⟩ := h
            simp [← hbs, ← hn]
            omega
          · split at h
            · simp only [Option.some.injEq, Prod.mk.injEq] at h
              obtain ⟨hbs, hn⟩ := h
              simp [← hbs, ← hn]
              omega
            · split at h
              · split at h
                · split at h
                  next => exact Option.noConfusion h
                  next lo h5 =>
                    have hl7 : 4 ≤ (l.drop 7).length := hex4_length h5
                    rw [List.length_drop] at hl7
                    split at h
                    · simp only [Option.some.injEq, Prod.mk.injEq] at h
                      obtain ⟨hbs, hn⟩ := h
                      simp [← hbs, ← hn]
                      omega
                    · exact Option.noConfusion h
                · exact Option.noConfusion h
              · exact Option.noConfusion h
    · exact Option.noConfusion h

end Kjson

namespace Kjson

/-! ### Pure decoder: fuel irrelevance and size facts -/

theorem decodeStrF_fuel_aux : ∀ (k : Nat), ∀ (f g : Nat) (l : List Nat),
    l.length ≤ k → l.length + 1 ≤ f → l.length + 1 ≤ g →
    decodeStrF f l = decodeStrF g l := by
  intro k
  induction k with
  | zero =>
    intro f g l hk hf hg
    cases f with
    | zero => omega
    | succ f =>
      cases g with
      | zero => omega
      | succ g =>
        match l, hk with
        | [], _ => rfl
  | succ k ih =>
    intro f g l hk hf hg
    cases f with
    | zero => omega
    | succ f =>
      cases g with
      | zero => omega
      | succ g =>
        cases l with
        | nil => rfl
        | cons c rest =>
          simp only [List.length_cons] at hk hf hg
          simp only [decodeStrF]
          by_cases h34 : c = 34
          · simp [h34]
          · rw [if_neg h34, if_neg h34]
            by_cases h31 : c ≤ 31
            · simp [h31]
            · rw [if_neg h31, if_neg h31]
              by_cases h92 : c = 92
              · rw [if_pos h92, if_pos h92]
                cases he : escaped rest with
                | none => rfl
                | some p =>
                  obtain ⟨bs, nn⟩ := p
                  obtain ⟨_, _, hn1, hnl⟩ := escaped_facts he
                  have hrw := ih f g (rest.drop nn)
                    (by rw [List.length_drop]; omega)
                    (by rw [List.length_drop]; omega)
                    (by rw [List.length_drop]; omega)
                  simp only [hrw]
              · rw [if_neg h92, if_neg h92]
                rw [ih f g rest (by omega) (by omega) (by omega)]

theorem decodeStrF_fuel {f : Nat} {l : List Nat} (hf : l.length + 1 ≤ f) :
    decodeStrF f l = decodeStr l :=
  decodeStrF_fuel_aux l.length f (l.length + 1) l (Nat.le_refl _) hf (Nat.le_refl _)

theorem decode_size : ∀ (f : Nat) (l : List Nat) (d rest : List Nat),
    decodeStrF f l = some (d, rest) → d.length + 1 + rest.length ≤ l.length := by
  intro f
  induction f with
  | zero => intro l d rest h; exact Option.noConfusion h
  | succ f ih =>
    intro l d rest h
    cases l with
    | nil => exact Option.noConfusion h
    | cons c r0 =>
      simp only [decodeStrF] at h
      by_cases h34 : c = 34
      · rw [if_pos h34] at h
        simp only [Option.some.injEq, Prod.mk.injEq] at h
        obtain ⟨hd, hr⟩ := h
        subst hd hr
        simp only [List.length_nil, List.length_cons]
        omega
      · rw [if_neg h34] at h
        by_cases h31 : c ≤ 31
        · rw [if_pos h31] at h; exact Option.noConfusion h
        · rw [if_neg h31] at h
          by_cases h92 : c = 92
          · rw [if_pos h92] at h
            cases he : escaped r0 with
            | none => rw [he] at h; exact Option.noConfusion h
            | some p =>
              obtain ⟨bs, nn⟩ := p
              rw [he] at h
              have h2 : Option.map (fun p => (bs ++ p.1, p.2))
                  (decodeStrF f (r0.drop nn)) = some (d, rest) := h
              cases hrec : decodeStrF f (r0.drop nn) with
              | none => rw [hrec] at h2; exact Option.noConfusion h2
              | some q =>
                obtain ⟨d2, rest2⟩ := q
                rw [hrec] at h2
                simp only [Option.map_some', Option.some.injEq, Prod.mk.injEq] at h2
                obtain ⟨hd, hr⟩ := h2
                subst hd hr
                have h1 := ih _ _ _ hrec
                obtain ⟨hb1, hb2, hn1, hnl⟩ := escaped_facts he
                rw [List.length_drop] at h1
                simp only [List.length_cons, List.length_append]
                omega
          · rw [if_neg h92] at h
            have h2 : Option.map (fun p => (c :: p.1, p.2))
                (decodeStrF f r0) = some (d, rest) := h
            cases hrec : decodeStrF f r0 with
            | none => rw [hrec] at h2; exact Option.noConfusion h2
            | some q =>
              obtain ⟨d2, rest2⟩ := q
              rw [hrec] at h2
              simp only [Option.map_some', Option.some.injEq, Prod.mk.injEq] at h2
              obtain ⟨hd, hr⟩ := h2
              subst hd hr
              have h1 := ih _ _ _ hrec
              simp only [List.length_cons]
              omega

end Kjson

namespace Kjson

/-- Correctness bundle for one run of the phase-2 rewrite loop starting at
read cursor `r`, write cursor `w`: the buffer keeps its length, is unchanged
below `w` and above the terminating NUL, carries the decoded bytes `d`
followed by NUL at `w`, and the cursor ends just past the closing quote. -/
def Ph2Good (B : List Nat) (r w : Nat) (d rest : List Nat) (B2 : List Nat) (r2 : Nat) : Prop :=
  B2.length = B.length ∧
  (∀ x, x < w → peek B2 x = peek B x) ∧
  (∀ t, t < d.length → peek B2 (w + t) = d.getD t 0) ∧
  peek B2 (w + d.length) = 0 ∧
  (∀ x, w + d.length < x → peek B2 x = peek B x) ∧
  r < r2 ∧ r2 ≤ B.length ∧ peek B (r2 - 1) = 34 ∧ B.drop r2 = rest ∧ w + d.length < r2

theorem phase2_decode_some : ∀ (f : Nat) (B : List Nat) (r w : Nat) (d rest : List Nat),
    w ≤ r → decodeStrF f (B.drop r) = some (d, rest) →
    ∃ B2 r2, phase2F f B r w = some (B2, w + d.length, r2) ∧ Ph2Good B r w d rest B2 r2 := by
  intro f
  induction f with
  | zero => intro B r w d rest hw h; exact Option.noConfusion h
  | succ f ih =>
    intro B r w d rest hw h
    cases hd : B.drop r with
    | nil => rw [hd] at h; exact Option.noConfusion h
    | cons c rest0 =>
      obtain ⟨hpc, hd1, hrB⟩ := drop_cons_facts hd
      rw [hd] at h
      simp only [decodeStrF] at h
      simp only [phase2F]
      rw [hpc]
      by_cases h34 : c = 34
      · rw [if_pos h34] at h
        rw [if_pos h34]
        simp only [Option.some.injEq, Prod.mk.injEq] at h
        obtain ⟨hdd, hrr⟩ := h
        subst hdd hrr
        refine ⟨B.set w 0, r + 1, by simp, ?_⟩
        refine ⟨by simp, fun x hx => peek_set_ne 0 (by omega),
          fun t ht => absurd ht (by simp), ?_, fun x hx => peek_set_ne 0 (by omega),
          by omega, by omega, ?_, ?_, by simp; omega⟩
        · simpa using peek_set_self 0 (by omega)
        · simpa using hpc.trans h34
        · simpa using hd1
      · rw [if_neg h34] at h
        rw [if_neg h34]
        by_cases h31 : c ≤ 31
        · rw [if_pos h31] at h; exact Option.noConfusion h
        · rw [if_neg h31] at h
          rw [if_neg h31]
          by_cases h92 : c = 92
          · rw [if_pos h92] at h
            rw [if_pos h92, hd1]
            cases he : escaped rest0 with
            | none => rw [he] at h; exact Option.noConfusion h
            | some p =>
              obtain ⟨bs, nn⟩ := p
              rw [he] at h
              have h2 : Option.map (fun p => (bs ++ p.1, p.2))
                  (decodeStrF f (rest0.drop nn)) = some (d, rest) := h
              cases hrec : decodeStrF f (rest0.drop nn) with
              | none => rw [hrec] at h2; exact Option.noConfusion h2
              | some q =>
                obtain ⟨d2, rest2⟩ := q
                rw [hrec] at h2
                simp only [Option.map_some', Option.some.injEq, Prod.mk.injEq] at h2
                obtain ⟨hdd, hrr⟩ := h2
                subst hdd hrr
                obtain ⟨hb1, hb2, hn1, hnl⟩ := escaped_facts he
                have hl0 : rest0.length = B.length - (r + 1) := by
                  rw [← hd1, List.length_drop]
                have hstar : (writeList B w bs).drop (r + 1 + nn) = rest0.drop nn := by
                  rw [writeList_drop bs B w (r + 1 + nn) (by omega)]
                  rw [← hd1, List.drop_drop]
                have hrec2 : decodeStrF f ((writeList B w bs).drop (r + 1 + nn)) =
                    some (d2, rest2) := by rw [hstar]; exact hrec
                obtain ⟨B2, r2, hph, hgood⟩ :=
                  ih (writeList B w bs) (r + 1 + nn) (w + bs.length) d2 rest2
                    (by omega) hrec2
                obtain ⟨g1, g2, g3, g4, g5, g6, g7, g8, g9, g10⟩ := hgood
                rw [writeList_length] at g1 g7
                have hidx : w + bs.length + d2.length = w + (bs ++ d2).length := by
                  simp [List.length_append]; omega
                refine ⟨B2, r2, ?_, ?_⟩
                · rw [hidx] at hph
                  exact hph
                · refine ⟨g1, ?_, ?_, ?_, ?_, by omega, g7, ?_, ?_, by omega⟩
                  · intro x hx
                    rw [g2 x (by omega), writeList_peek_lt bs B w x hx]
                  · intro t ht
                    by_cases htb : t < bs.length
                    · rw [g2 (w + t) (by omega),
                        writeList_peek_mid bs B w t htb (by omega),
                        List.getD_append bs d2 0 t htb]
                    · have hts : t - bs.length < d2.length := by
                        simp only [List.length_append] at ht; omega
                      have := g3 (t - bs.length) hts
                      rw [show w + bs.length + (t - bs.length) = w + t by omega] at this
                      rw [this, List.getD_append_right bs d2 0 t (by omega)]
                  · rw [← hidx]; exact g4
                  · intro x hx
                    rw [g5 x (by rw [← hidx] at hx; omega),
                      writeList_peek_ge bs B w x (by omega)]
                  · rw [writeList_peek_ge bs B w (r2 - 1) (by omega)] at g8
                    exact g8
                  · rw [writeList_drop bs B w r2 (by omega)] at g9
                    exact g9
          · rw [if_neg h92] at h
            rw [if_neg h92]
            have h2 : Option.map (fun p => (c :: p.1, p.2))
                (decodeStrF f rest0) = some (d, rest) := h
            cases hrec : decodeStrF f rest0 with
            | none => rw [hrec] at h2; exact Option.noConfusion h2
            | some q =>
              obtain ⟨d2, rest2⟩ := q
              rw [hrec] at h2
              simp only [Option.map_some', Option.some.injEq, Prod.mk.injEq] at h2
              obtain ⟨hdd, hrr⟩ := h2
              subst hdd hrr
              have hBc1 : (if w = r then B else B.set w c).length = B.length := by
                by_cases hwr : w = r <;> simp [hwr]
              have hBc2 : ∀ x, x ≠ w → peek (if w = r then B else B.set w c) x = peek B x := by
                intro x hx
                by_cases hwr : w = r
                · rw [if_pos hwr]
                · rw [if_neg hwr, peek_set_ne c (by omega)]
              have hBc3 : peek (if w = r then B else B.set w c) w = c := by
                by_cases hwr : w = r
                · rw [if_pos hwr, hwr]; exact hpc
                · rw [if_neg hwr, peek_set_self c (by omega)]
              have hBc4 : ∀ t, w < t → (if w = r then B else B.set w c).drop t = B.drop t := by
                intro t ht
                by_cases hwr : w = r
                · rw [if_pos hwr]
                · rw [if_neg hwr, List.drop_set_of_lt c _ ht]
              have hrec2 : decodeStrF f ((if w = r then B else B.set w c).drop (r + 1)) =
                  some (d2, rest2) := by rw [hBc4 (r + 1) (by omega), hd1]; exact hrec
              obtain ⟨B2, r2, hph, hgood⟩ :=
                ih (if w = r then B else B.set w c) (r + 1) (w + 1) d2 rest2 (by omega) hrec2
              obtain ⟨g1, g2, g3, g4, g5, g6, g7, g8, g9, g10⟩ := hgood
              rw [hBc1] at g1 g7
              refine ⟨B2, r2, ?_, ?_⟩
              · rw [hph]
                have : w + 1 + d2.length = w + (c :: d2).length := by simp; omega
                rw [this]
              · refine ⟨g1, ?_, ?_, ?_, ?_, by omega, g7, ?_, ?_, by simp at g10 ⊢; omega⟩
                · intro x hx
                  rw [g2 x (by omega), hBc2 x (by omega)]
                · intro t ht
                  match t with
                  | 0 =>
                    rw [Nat.add_zero, g2 w (by omega), hBc3]
                    rfl
                  | t + 1 =>
                    have := g3 t (by simpa using Nat.lt_of_succ_lt_succ ht)
                    rw [show w + 1 + t = w + (t + 1) by omega] at this
                    rw [this]
                    rfl
                · have := g4
                  rw [show w + 1 + d2.length = w + (c :: d2).length by simp; omega] at this
                  exact this
                · intro x hx
                  have hx2 : w + 1 + d2.length < x := by
                    simp only [List.length_cons] at hx; omega
                  rw [g5 x hx2, hBc2 x (by omega)]
                · rw [hBc2 (r2 - 1) (by omega)] at g8
                  exact g8
                · rw [hBc4 r2 (by omega)] at g9
                  exact g9

theorem phase2_decode_none : ∀ (f : Nat) (B : List Nat) (r w : Nat),
    w ≤ r → decodeStrF f (B.drop r) = none → phase2F f B r w = none := by
  intro f
  induction f with
  | zero => intro B r w hw h; rfl
  | succ f ih =>
    intro B r w hw h
    cases hd : B.drop r with
    | nil =>
      have hp0 := peek_of_drop_nil hd
      simp only [phase2F]
      rw [hp0]
      norm_num
    | cons c rest0 =>
      obtain ⟨hpc, hd1, hrB⟩ := drop_cons_facts hd
      rw [hd] at h
      simp only [decodeStrF] at h
      simp only [phase2F]
      rw [hpc]
      by_cases h34 : c = 34
      · rw [if_pos h34] at h; exact Option.noConfusion h
      · rw [if_neg h34] at h
        rw [if_neg h34]
        by_cases h31 : c ≤ 31
        · rw [if_pos h31]
        · rw [if_neg h31] at h
          rw [if_neg h31]
          by_cases h92 : c = 92
          · rw [if_pos h92] at h
            rw [if_pos h92, hd1]
            cases he : escaped rest0 with
            | none => rfl
            | some p =>
              obtain ⟨bs, nn⟩ := p
              rw [he] at h
              have h2 : Option.map (fun p => (bs ++ p.1, p.2))
                  (decodeStrF f (rest0.drop nn)) = none := h
              have hrec : decodeStrF f (rest0.drop nn) = none := by
                cases hx : decodeStrF f (rest0.drop nn) with
                | none => rfl
                | some q => rw [hx] at h2; exact Option.noConfusion h2
              obtain ⟨hb1, hb2, hn1, hnl⟩ := escaped_facts he
              have hl0 : rest0.length = B.length - (r + 1) := by
                rw [← hd1, List.length_drop]
              show phase2F f (writeList B w bs) (r + 1 + nn) (w + bs.length) = none
              apply ih (writeList B w bs) (r + 1 + nn) (w + bs.length) (by omega)
              rw [writeList_drop bs B w (r + 1 + nn) (by omega), ← List.drop_drop, hd1]
              exact hrec
          · rw [if_neg h92] at h
            rw [if_neg h92]
            have h2 : Option.map (fun p => (c :: p.1, p.2))
                (decodeStrF f rest0) = none := h
            have hrec : decodeStrF f rest0 = none := by
              cases hx : decodeStrF f rest0 with
              | none => rfl
              | some q => rw [hx] at h2; exact Option.noConfusion h2
            apply ih (if w = r then B else B.set w c) (r + 1) (w + 1) (by omega)
            have hBc4 : (if w = r then B else B.set w c).drop (r + 1) = B.drop (r + 1) := by
              by_cases hwr : w = r
              · rw [if_pos hwr]
              · rw [if_neg hwr, List.drop_set_of_lt c _ (by omega)]
            rw [hBc4, hd1]
            exact hrec

end Kjson

namespace Kjson
theorem scan1F_oob : ∀ (g : Nat) (B : List Nat) (j : Nat), B.length ≤ j →
    scan1F g B j = none := by
  intro g
  induction g with
  | zero => intro B j h; rfl
  | succ g ih =>
    intro B j h
    have hp : peek B j = 0 := by
      simp only [peek_eq_getElem?]
      rw [List.getElem?_eq_none h]
      rfl
    rw [scan1F.eq_2, hp]
    norm_num

theorem scan1F_fuel : ∀ (f g : Nat) (B : List Nat) (j : Nat),
    B.length + 1 ≤ f + j → B.length + 1 ≤ g + j →
    scan1F f B j = scan1F g B j := by
  intro f
  induction f with
  | zero =>
    intro g B j hf hg
    rw [scan1F.eq_1, scan1F_oob g B j (by omega)]
  | succ f ih =>
    intro g B j hf hg
    cases g with
    | zero => rw [scan1F.eq_1, scan1F_oob (f + 1) B j (by omega)]
    | succ g =>
      rw [scan1F.eq_2, scan1F.eq_2]
      by_cases hsp : (decide (peek B j = 34) || decide (peek B j = 92)) = true
      · rw [if_pos hsp, if_pos hsp]
      · rw [if_neg hsp, if_neg hsp]
        by_cases h31 : peek B j ≤ 31
        · rw [if_pos h31, if_pos h31]
        · rw [if_neg h31, if_neg h31]
          have hnz : peek B j ≠ 0 := by omega
          have := peek_lt_length hnz
          exact ih g B (j + 1) (by omega) (by omega)

theorem decodeStr_nil : decodeStr ([] : List Nat) = none := rfl

theorem decodeStr_cons_quote (l : List Nat) : decodeStr (34 :: l) = some ([], l) := by
  rw [decodeStr, decodeStrF.eq_3, if_pos rfl]

theorem decodeStr_cons_ctrl {c : Nat} (l : List Nat) (h31 : c ≤ 31) :
    decodeStr (c :: l) = none := by
  rw [decodeStr, decodeStrF.eq_3]
  rw [if_neg (by omega : ¬ c = 34), if_pos h31]

theorem plainByte_facts {c : Nat} (h : plainByte c = true) :
    ¬ c = 34 ∧ ¬ c = 92 ∧ ¬ c ≤ 31 := by
  simp only [plainByte, Bool.and_eq_true, Bool.not_eq_eq_eq_not, Bool.not_true,
    decide_eq_false_iff_not, decide_eq_true_eq] at h
  exact ⟨h.1.1, h.1.2, by omega⟩

theorem decodeStr_cons_plain {c : Nat} (l : List Nat) (hplain : plainByte c = true) :
    decodeStr (c :: l) = (decodeStr l).map fun p => (c :: p.1, p.2) := by
  obtain ⟨h34, h92, h31⟩ := plainByte_facts hplain
  rw [decodeStr, decodeStrF.eq_3]
  rw [if_neg h34, if_neg h31, if_neg h92]
  simp only [List.length_cons]
  rw [@decodeStrF_fuel (l.length + 1) l (Nat.le_refl _)]

end Kjson

namespace Kjson

theorem strBody_plain_step {B : List Nat} {bg : Nat}
    (hplain : plainByte (peek B bg) = true) : strBody B bg = strBody B (bg + 1) := by
  obtain ⟨h34, h92, h31⟩ := plainByte_facts hplain
  have hnz : peek B bg ≠ 0 := by omega
  have hlt := peek_lt_length hnz
  have h1 : scan1F (B.length + 1) B bg = scan1F (B.length + 1) B (bg + 1) := by
    rw [scan1F.eq_2,
      if_neg (by simp only [Bool.or_eq_true, decide_eq_true_eq]
                 exact fun hor => hor.elim h34 h92),
      if_neg h31]
    exact scan1F_fuel (B.length) (B.length + 1) B (bg + 1) (by omega) (by omega)
  rw [strBody, strBody, h1]

theorem strBody_decode : ∀ (k : Nat) (B : List Nat) (bg : Nat), B.length - bg ≤ k →
    (decodeStr (B.drop bg) = none → strBody B bg = none) ∧
    (∀ d rest, decodeStr (B.drop bg) = some (d, rest) →
      ∃ B2 r2, strBody B bg = some (B2, bg + d.length, r2) ∧ Ph2Good B bg bg d rest B2 r2) := by
  intro k
  induction k with
  | zero =>
    intro B bg hk
    have hoob : B.length ≤ bg := by omega
    have hnil : B.drop bg = [] := List.drop_eq_nil_of_le hoob
    have hsb : strBody B bg = none := by
      rw [strBody, scan1F_oob (B.length + 1) B bg hoob]
    refine ⟨fun _ => hsb, fun d rest hsome => ?_⟩
    rw [hnil] at hsome
    exact Option.noConfusion hsome
  | succ k ih =>
    intro B bg hk
    by_cases hsp : peek B bg = 34 ∨ peek B bg = 92
    · -- phase 1 stops immediately; phase 2 handles everything
      have hscan : scan1F (B.length + 1) B bg = some bg := by
        rw [scan1F.eq_2, if_pos (by rcases hsp with h | h <;> simp [h])]
      have hfuel : (B.drop bg).length + 1 ≤ B.length + 1 := by
        rw [List.length_drop]; omega
      constructor
      · intro hnone
        rw [strBody, hscan]
        show phase2F (B.length + 1) B bg bg = none
        exact phase2_decode_none (B.length + 1) B bg bg (Nat.le_refl bg)
          (by rw [decodeStrF_fuel hfuel]; exact hnone)
      · intro d rest hsome
        obtain ⟨B2, r2, hph, hgood⟩ := phase2_decode_some (B.length + 1) B bg bg d rest
          (Nat.le_refl bg) (by rw [decodeStrF_fuel hfuel]; exact hsome)
        refine ⟨B2, r2, ?_, hgood⟩
        rw [strBody, hscan]
        exact hph
    · by_cases h31 : peek B bg ≤ 31
      · have hsb : strBody B bg = none := by
          rw [strBody, scan1F.eq_2,
            if_neg (by simp only [Bool.or_eq_true, decide_eq_true_eq]; exact hsp),
            if_pos h31]
        refine ⟨fun _ => hsb, fun d rest hsome => ?_⟩
        exfalso
        rcases drop_cases B bg with ⟨hnil, _⟩ | ⟨rest0, hcons, _, _⟩
        · rw [hnil] at hsome; exact Option.noConfusion hsome
        · rw [hcons, decodeStr_cons_ctrl rest0 h31] at hsome
          exact Option.noConfusion hsome
      · -- plain byte: step to bg + 1
        have hplain : plainByte (peek B bg) = true := by
          simp only [plainByte, Bool.and_eq_true, Bool.not_eq_eq_eq_not, Bool.not_true,
            decide_eq_false_iff_not, decide_eq_true_eq]
          exact ⟨⟨fun h => hsp (Or.inl h), fun h => hsp (Or.inr h)⟩, by omega⟩
        have hnz : peek B bg ≠ 0 := by omega
        have hlt := peek_lt_length hnz
        rcases drop_cases B bg with ⟨hnil, hz⟩ | ⟨rest0, hcons, hd1, _⟩
        · rw [hz] at hnz; exact absurd rfl hnz
        · have hstep := strBody_plain_step hplain
          have hdec : decodeStr (B.drop bg) =
              (decodeStr (B.drop (bg + 1))).map fun p => (peek B bg :: p.1, p.2) := by
            rw [hcons, hd1, decodeStr_cons_plain rest0 hplain]
          have hih := ih B (bg + 1) (by omega)
          constructor
          · intro hnone
            rw [hdec] at hnone
            have : decodeStr (B.drop (bg + 1)) = none := by
              cases hx : decodeStr (B.drop (bg + 1)) with
              | none => rfl
              | some q => rw [hx] at hnone; exact Option.noConfusion hnone
            rw [hstep]
            exact hih.1 this
          · intro d rest hsome
            rw [hdec] at hsome
            cases hx : decodeStr (B.drop (bg + 1)) with
            | none => rw [hx] at hsome; exact Option.noConfusion hsome
            | some q =>
              obtain ⟨d2, rest2⟩ := q
              rw [hx] at hsome
              simp only [Option.map_some', Option.some.injEq, Prod.mk.injEq] at hsome
              obtain ⟨hdd, hrr⟩ := hsome
              subst hdd hrr
              obtain ⟨B2, r2, hsb, hgood⟩ := hih.2 d2 rest2 hx
              obtain ⟨g1, g2, g3, g4, g5, g6, g7, g8, g9, g10⟩ := hgood
              refine ⟨B2, r2, ?_, ?_⟩
              · rw [hstep, hsb]
                have hx2 : bg + 1 + d2.length = bg + (peek B bg :: d2).length := by
                  simp only [List.length_cons]; omega
                rw [hx2]
              · refine ⟨g1, fun x hx2 => g2 x (by omega), ?_, ?_, ?_,
                  by omega, g7, g8, g9, by simp only [List.length_cons]; omega⟩
                · intro t ht
                  match t with
                  | 0 =>
                    rw [Nat.add_zero, g2 bg (by omega)]
                    rfl
                  | t + 1 =>
                    have hmid := g3 t (by simpa using Nat.lt_of_succ_lt_succ ht)
                    rw [show bg + 1 + t = bg + (t + 1) by omega] at hmid
                    rw [hmid]
                    rfl
                · have hnul := g4
                  rw [show bg + 1 + d2.length = bg + (peek B bg :: d2).length by
                    simp only [List.length_cons]; omega] at hnul
                  exact hnul
                · intro x hx2
                  refine g5 x ?_
                  simp only [List.length_cons] at hx2
                  omega

end Kjson

namespace Kjson

/-! ### kjson_read_string_utf8: refinement against the pure decoder -/

theorem rs_not_quote {B : List Nat} {i : Nat} (h : ¬ peek B i = 34) :
    kjson_read_string_utf8 B i = none := by
  rw [kjson_read_string_utf8, if_neg h]

theorem rs_decode_none {B : List Nat} {i : Nat} (hq : peek B i = 34)
    (hn : decodeStr (B.drop (i + 1)) = none) :
    kjson_read_string_utf8 B i = none := by
  rw [kjson_read_string_utf8, if_pos hq,
    (strBody_decode B.length B (i + 1) (by omega)).1 hn]

theorem rs_decode_some {B : List Nat} {i : Nat} {d rest : List Nat}
    (hq : peek B i = 34) (hs : decodeStr (B.drop (i + 1)) = some (d, rest)) :
    ∃ B2 r2, kjson_read_string_utf8 B i = some (B2, i + 1, d.length, r2) ∧
      Ph2Good B (i + 1) (i + 1) d rest B2 r2 := by
  obtain ⟨B2, r2, hsb, hgood⟩ := (strBody_decode B.length B (i + 1) (by omega)).2 d rest hs
  refine ⟨B2, r2, ?_, hgood⟩
  rw [kjson_read_string_utf8, if_pos hq, hsb]
  show some (B2, i + 1, i + 1 + d.length - (i + 1), r2) = some (B2, i + 1, d.length, r2)
  rw [show i + 1 + d.length - (i + 1) = d.length by omega]

theorem rs_inv {B : List Nat} {i : Nat} {B2 : List Nat} {bg len r2 : Nat}
    (h : kjson_read_string_utf8 B i = some (B2, bg, len, r2)) :
    peek B i = 34 ∧ bg = i + 1 ∧
    ∃ d rest, decodeStr (B.drop (i + 1)) = some (d, rest) ∧ len = d.length ∧
      Ph2Good B (i + 1) (i + 1) d rest B2 r2 := by
  by_cases hq : peek B i = 34
  · cases hx : decodeStr (B.drop (i + 1)) with
    | none => rw [rs_decode_none hq hx] at h; exact Option.noConfusion h
    | some q =>
      obtain ⟨d, rest⟩ := q
      obtain ⟨B2x, r2x, hrs, hgood⟩ := rs_decode_some hq hx
      rw [hrs] at h
      simp only [Option.some.injEq, Prod.mk.injEq] at h
      obtain ⟨hB, hbg, hlen, hr2⟩ := h
      subst hB hbg hlen hr2
      exact ⟨hq, rfl, d, rest, rfl, rfl, hgood⟩
  · rw [rs_not_quote hq] at h
    exact Option.noConfusion h

theorem rs_facts {B : List Nat} {i : Nat} {B2 : List Nat} {bg len r2 : Nat}
    (h : kjson_read_string_utf8 B i = some (B2, bg, len, r2)) :
    peek B i = 34 ∧ bg = i + 1 ∧ B2.length = B.length ∧ i + 2 ≤ r2 ∧ r2 ≤ B.length := by
  obtain ⟨hq, hbg, d, rest, hdec, hlen, g1, g2, g3, g4, g5, g6, g7, g8, g9, g10⟩ := rs_inv h
  exact ⟨hq, hbg, g1, by omega, g7⟩

theorem rs_last_byte {B : List Nat} {i : Nat} {B2 : List Nat} {bg len r2 : Nat}
    (h : kjson_read_string_utf8 B i = some (B2, bg, len, r2)) :
    peek B2 (r2 - 1) = 34 ∨ peek B2 (r2 - 1) = 0 := by
  obtain ⟨hq, hbg, d, rest, hdec, hlen, g1, g2, g3, g4, g5, g6, g7, g8, g9, g10⟩ := rs_inv h
  have hsz := decode_size ((B.drop (i + 1)).length + 1) (B.drop (i + 1)) d rest hdec
  rw [List.length_drop] at hsz
  have hrest : rest.length = B.length - r2 := by
    rw [← g9, List.length_drop]
  have hd2 : i + 1 + d.length ≤ r2 - 1 := by omega
  by_cases hEq : i + 1 + d.length = r2 - 1
  · right
    rw [← hEq]
    exact g4
  · left
    rw [g5 (r2 - 1) (by omega)]
    exact g8

/-! ### Endpoint facts for the numeric readers -/

theorem digitsRun_progress {B : List Nat} {i : Nat} (h : isDigit (peek B i) = true) :
    i + 1 ≤ (digitsRun B i).2 := by
  rw [digitsRun, digitsRunF, if_pos h]
  exact digitsRunF_ge _ B (i + 1) _

theorem strtoumax_cases (B : List Nat) (i : Nat) :
    ((strtoumaxAt B i).2.1 = i ∧ (strtoumaxAt B i).1 = 0 ∧ (strtoumaxAt B i).2.2 = false) ∨
    (i < (strtoumaxAt B i).2.1 ∧ (strtoumaxAt B i).2.1 ≤ B.length ∧
      isDigit (peek B ((strtoumaxAt B i).2.1 - 1)) = true ∧
      ¬ isDigit (peek B (strtoumaxAt B i).2.1) = true) := by
  rw [strtoumaxAt]
  set z := skipWsCIdx B i with hz
  have hzi : i ≤ z := skipWsCIdx_ge B i
  by_cases hsgn : peek B z = 43 || peek B z = 45
  · rw [if_pos hsgn]
    by_cases hd : isDigit (peek B (z + 1))
    · rw [if_pos hd]
      have hnz : peek B (z + 1) ≠ 0 := by
        intro h0; rw [h0] at hd; simp [isDigit] at hd
      have hlt := peek_lt_length hnz
      have hspec := digitsRun_spec B (z + 1)
      have hprog := digitsRun_progress hd
      have hle : (digitsRun B (z + 1)).2 ≤ B.length := hspec.2.1 (by omega)
      have hlast := hspec.2.2 (by omega)
      by_cases hov : (digitsRun B (z + 1)).1 > UINTMAX_MAX
      · rw [if_pos hov]
        exact Or.inr ⟨(by omega : i < (digitsRun B (z + 1)).2), hle, hlast, hspec.1⟩
      · rw [if_neg hov]
        exact Or.inr ⟨(by omega : i < (digitsRun B (z + 1)).2), hle, hlast, hspec.1⟩
    · rw [if_neg hd]
      exact Or.inl ⟨rfl, rfl, rfl⟩
  · rw [if_neg hsgn]
    by_cases hd : isDigit (peek B z)
    · rw [if_pos hd]
      have hnz : peek B z ≠ 0 := by
        intro h0; rw [h0] at hd; simp [isDigit] at hd
      have hlt := peek_lt_length hnz
      have hspec := digitsRun_spec B z
      have hprog := digitsRun_progress hd
      have hle : (digitsRun B z).2 ≤ B.length := hspec.2.1 (by omega)
      have hlast := hspec.2.2 (by omega)
      by_cases hov : (digitsRun B z).1 > UINTMAX_MAX
      · rw [if_pos hov]
        exact Or.inr ⟨(by omega : i < (digitsRun B z).2), hle, hlast, hspec.1⟩
      · rw [if_neg hov]
        exact Or.inr ⟨(by omega : i < (digitsRun B z).2), hle, hlast, hspec.1⟩
    · rw [if_neg hd]
      exact Or.inl ⟨rfl, rfl, rfl⟩

theorem strtol_cases (B : List Nat) (i : Nat) :
    ((strtolAt B i).2.1 = i ∧ (strtolAt B i).1 = 0 ∧ (strtolAt B i).2.2 = false) ∨
    (i < (strtolAt B i).2.1 ∧ (strtolAt B i).2.1 ≤ B.length ∧
      isDigit (peek B ((strtolAt B i).2.1 - 1)) = true ∧
      ¬ isDigit (peek B (strtolAt B i).2.1) = true) := by
  rw [strtolAt]
  set z := skipWsCIdx B i with hz
  have hzi : i ≤ z := skipWsCIdx_ge B i
  by_cases hsgn : peek B z = 43 || peek B z = 45
  · rw [if_pos hsgn]
    by_cases hd : isDigit (peek B (z + 1))
    · rw [if_pos hd]
      have hnz : peek B (z + 1) ≠ 0 := by
        intro h0; rw [h0] at hd; simp [isDigit] at hd
      have hlt := peek_lt_length hnz
      have hspec := digitsRun_spec B (z + 1)
      have hprog := digitsRun_progress hd
      have hle : (digitsRun B (z + 1)).2 ≤ B.length := hspec.2.1 (by omega)
      have hlast := hspec.2.2 (by omega)
      by_cases hneg : peek B z = 45
      · rw [if_pos hneg]
        by_cases hov : (digitsRun B (z + 1)).1 > 2 ^ 63
        · rw [if_pos hov]
          exact Or.inr ⟨(by omega : i < (digitsRun B (z + 1)).2), hle, hlast, hspec.1⟩
        · rw [if_neg hov]
          exact Or.inr ⟨(by omega : i < (digitsRun B (z + 1)).2), hle, hlast, hspec.1⟩
      · rw [if_neg hneg]
        by_cases hov : (digitsRun B (z + 1)).1 > 2 ^ 63 - 1
        · rw [if_pos hov]
          exact Or.inr ⟨(by omega : i < (digitsRun B (z + 1)).2), hle, hlast, hspec.1⟩
        · rw [if_neg hov]
          exact Or.inr ⟨(by omega : i < (digitsRun B (z + 1)).2), hle, hlast, hspec.1⟩
    · rw [if_neg hd]
      exact Or.inl ⟨rfl, rfl, rfl⟩
  · rw [if_neg hsgn]
    by_cases hd : isDigit (peek B z)
    · rw [if_pos hd]
      have hnz : peek B z ≠ 0 := by
        intro h0; rw [h0] at hd; simp [isDigit] at hd
      have hlt := peek_lt_length hnz
      have hspec := digitsRun_spec B z
      have hprog := digitsRun_progress hd
      have hle : (digitsRun B z).2 ≤ B.length := hspec.2.1 (by omega)
      have hlast := hspec.2.2 (by omega)
      by_cases hneg : peek B z = 45
      · rw [if_pos hneg]
        by_cases hov : (digitsRun B z).1 > 2 ^ 63
        · rw [if_pos hov]
          exact Or.inr ⟨(by omega : i < (digitsRun B z).2), hle, hlast, hspec.1⟩
        · rw [if_neg hov]
          exact Or.inr ⟨(by omega : i < (digitsRun B z).2), hle, hlast, hspec.1⟩
      · rw [if_neg hneg]
        by_cases hov : (digitsRun B z).1 > 2 ^ 63 - 1
        · rw [if_pos hov]
          exact Or.inr ⟨(by omega : i < (digitsRun B z).2), hle, hlast, hspec.1⟩
        · rw [if_neg hov]
          exact Or.inr ⟨(by omega : i < (digitsRun B z).2), hle, hlast, hspec.1⟩
    · rw [if_neg hd]
      exact Or.inl ⟨rfl, rfl, rfl⟩

theorem strtodFrac_cases (B : List Nat) (t : Nat) :
    (strtodFracAt B t).2 = t ∨
    (t + 2 ≤ (strtodFracAt B t).2 ∧ (strtodFracAt B t).2 ≤ B.length ∧
      isDigit (peek B ((strtodFracAt B t).2 - 1)) = true) := by
  rw [strtodFracAt]
  by_cases h0 : peek B t = 46 && isDigit (peek B (t + 1))
  · rw [if_pos h0]
    simp only [Bool.and_eq_true, decide_eq_true_eq] at h0
    have hd1 : isDigit (peek B (t + 1)) = true := h0.2
    have hnz : peek B (t + 1) ≠ 0 := by
      intro hx; rw [hx] at hd1; simp [isDigit] at hd1
    have hlt := peek_lt_length hnz
    have hspec := digitsRun_spec B (t + 1)
    have hprog := digitsRun_progress hd1
    have hle : (digitsRun B (t + 1)).2 ≤ B.length := hspec.2.1 (by omega)
    have hlast := hspec.2.2 (by omega)
    by_cases hE : peek B (digitsRun B (t + 1)).2 = 69 || peek B (digitsRun B (t + 1)).2 = 101
    · rw [if_pos hE]
      by_cases hd2 : isDigit (peek B (if peek B ((digitsRun B (t + 1)).2 + 1) = 43 ||
          peek B ((digitsRun B (t + 1)).2 + 1) = 45 then (digitsRun B (t + 1)).2 + 2
          else (digitsRun B (t + 1)).2 + 1))
      · rw [if_pos hd2]
        set s1 := if peek B ((digitsRun B (t + 1)).2 + 1) = 43 ||
          peek B ((digitsRun B (t + 1)).2 + 1) = 45 then (digitsRun B (t + 1)).2 + 2
          else (digitsRun B (t + 1)).2 + 1 with hs1
        have hs1ge : (digitsRun B (t + 1)).2 + 1 ≤ s1 := by
          rw [hs1]
          split
          · omega
          · omega
        have hnz2 : peek B s1 ≠ 0 := by
          intro hx; rw [hx] at hd2; simp [isDigit] at hd2
        have hlt2 := peek_lt_length hnz2
        have hspec2 := digitsRun_spec B s1
        have hprog2 := digitsRun_progress hd2
        have hle2 : (digitsRun B s1).2 ≤ B.length := hspec2.2.1 (by omega)
        have hlast2 := hspec2.2.2 (by omega)
        exact Or.inr ⟨(by omega : t + 2 ≤ (digitsRun B s1).2), hle2, hlast2⟩
      · rw [if_neg hd2]
        exact Or.inr ⟨(by omega : t + 2 ≤ (digitsRun B (t + 1)).2), hle, hlast⟩
    · rw [if_neg hE]
      exact Or.inr ⟨(by omega : t + 2 ≤ (digitsRun B (t + 1)).2), hle, hlast⟩
  · rw [if_neg h0]
    exact Or.inl rfl

end Kjson

namespace Kjson

theorem isDigit_not_ws {c : Nat} (h : isDigit c = true) : isWsJson c = false := by
  simp only [isDigit, Bool.and_eq_true, decide_eq_true_eq] at h
  simp only [isWsJson, Bool.or_eq_false_iff, decide_eq_false_iff_not]
  omega

theorem read_number_facts {B : List Nat} {i : Nat} {l : KLeaf} {j : Nat}
    (h : kjson_read_number B i = some (l, j)) :
    i + 1 ≤ j ∧ j ≤ B.length ∧ isWsJson (peek B (j - 1)) = false := by
  simp only [kjson_read_number] at h
  set i1 := if peek B i = 45 then i + 1 else i with hi1def
  have hi1 : i ≤ i1 := by rw [hi1def]; split <;> omega
  split at h
  · exact Option.noConfusion h
  next hguard =>
    have htne : (strtoumaxAt B i1).2.1 ≠ i1 := by
      intro hteq
      exact hguard (by rw [hteq]; simp)
    rcases strtoumax_cases B i1 with ⟨ht, hv, ho⟩ | ⟨ht1, ht2, ht3, ht4⟩
    · exact absurd ht htne
    · split at h
      next hdot =>
        simp only [Option.some.injEq, Prod.mk.injEq] at h
        obtain ⟨hl, hj⟩ := h
        rcases strtodFrac_cases B (strtoumaxAt B i1).2.1 with
          hfe | ⟨hfe1, hfe2, hfe3⟩
        · rw [← hj, hfe]
          exact ⟨by omega, by omega, isDigit_not_ws ht3⟩
        · rw [← hj]
          exact ⟨by omega, hfe2, isDigit_not_ws hfe3⟩
      next hdot =>
        split at h
        next hE =>
          split at h
          · exact Option.noConfusion h
          · simp only [Option.some.injEq, Prod.mk.injEq] at h
            obtain ⟨hl, hj⟩ := h
            have hE2 : peek B (strtoumaxAt B i1).2.1 = 69 ∨
                peek B (strtoumaxAt B i1).2.1 = 101 := by
              simpa using hE
            rcases strtol_cases B ((strtoumaxAt B i1).2.1 + 1) with
              ⟨he1, he2, he3⟩ | ⟨he1, he2, he3, he4⟩
            · have hEnz : peek B (strtoumaxAt B i1).2.1 ≠ 0 := by
                rcases hE2 with hE2 | hE2 <;> omega
              have hElt := peek_lt_length hEnz
              rw [← hj, he1]
              refine ⟨by omega, by omega, ?_⟩
              rw [show (strtoumaxAt B i1).2.1 + 1 - 1 = (strtoumaxAt B i1).2.1 by omega]
              rcases hE2 with hE2 | hE2 <;> rw [hE2] <;> rfl
            · rw [← hj]
              exact ⟨by omega, he2, isDigit_not_ws he3⟩
        next hE =>
          split at h
          · simp only [Option.some.injEq, Prod.mk.injEq] at h
            obtain ⟨hl, hj⟩ := h
            rw [← hj]
            exact ⟨by omega, ht2, isDigit_not_ws ht3⟩
          · split at h
            · exact Option.noConfusion h
            · simp only [Option.some.injEq, Prod.mk.injEq] at h
              obtain ⟨hl, hj⟩ := h
              rw [← hj]
              exact ⟨by omega, ht2, isDigit_not_ws ht3⟩

end Kjson

namespace Kjson

theorem parse_leaf_facts {B : List Nat} {i : Nat} {l : KLeaf} {B2 : List Nat} {j : Nat}
    (h : kjson_parse_leaf B i = some (l, B2, j)) :
    i + 1 ≤ j ∧ j ≤ B.length ∧ B2.length = B.length ∧
      isWsJson (peek B2 (j - 1)) = false := by
  rw [kjson_parse_leaf] at h
  split at h
  · -- string
    cases hs : kjson_read_string_utf8 B i with
    | none => rw [hs] at h; exact Option.noConfusion h
    | some q =>
      obtain ⟨Bq, bg, len, r2⟩ := q
      rw [hs] at h
      simp only [Option.some.injEq, Prod.mk.injEq] at h
      obtain ⟨hl, hB2, hj⟩ := h
      obtain ⟨hq, hbg, hlen, hge, hle⟩ := rs_facts hs
      subst hB2 hj
      refine ⟨by omega, hle, hlen, ?_⟩
      rcases rs_last_byte hs with hlast | hlast <;> rw [hlast] <;> rfl
  · split at h
    next hm =>
      -- null
      simp only [matchesAt, Bool.and_eq_true, decide_eq_true_eq] at hm
      obtain ⟨m0, m1, m2, m3, -⟩ := hm
      simp only [Option.some.injEq, Prod.mk.injEq] at h
      obtain ⟨hl, hB2, hj⟩ := h
      subst hB2 hj
      have h3 : peek B (i + 1 + 1 + 1) ≠ 0 := by omega
      have := peek_lt_length h3
      refine ⟨by omega, by omega, rfl, ?_⟩
      rw [show i + 4 - 1 = i + 1 + 1 + 1 by omega, m3]
      rfl
    next =>
      split at h
      next hm =>
        -- true
        simp only [matchesAt, Bool.and_eq_true, decide_eq_true_eq] at hm
        obtain ⟨m0, m1, m2, m3, -⟩ := hm
        simp only [Option.some.injEq, Prod.mk.injEq] at h
        obtain ⟨hl, hB2, hj⟩ := h
        subst hB2 hj
        have h3 : peek B (i + 1 + 1 + 1) ≠ 0 := by omega
        have := peek_lt_length h3
        refine ⟨by omega, by omega, rfl, ?_⟩
        rw [show i + 4 - 1 = i + 1 + 1 + 1 by omega, m3]
        rfl
      next =>
        split at h
        next hm =>
          -- false
          simp only [matchesAt, Bool.and_eq_true, decide_eq_true_eq] at hm
          obtain ⟨m0, m1, m2, m3, m4, -⟩ := hm
          simp only [Option.some.injEq, Prod.mk.injEq] at h
          obtain ⟨hl, hB2, hj⟩ := h
          subst hB2 hj
          have h4 : peek B (i + 1 + 1 + 1 + 1) ≠ 0 := by omega
          have := peek_lt_length h4
          refine ⟨by omega, by omega, rfl, ?_⟩
          rw [show i + 5 - 1 = i + 1 + 1 + 1 + 1 by omega, m4]
          rfl
        next =>
          -- number
          cases hn : kjson_read_number B i with
          | none => rw [hn] at h; exact Option.noConfusion h
          | some q =>
            obtain ⟨lf, jn⟩ := q
            rw [hn] at h
            simp only [Option.some.injEq, Prod.mk.injEq] at h
            obtain ⟨hl, hB2, hj⟩ := h
            subst hB2 hj
            obtain ⟨n1, n2, n3⟩ := read_number_facts hn
            exact ⟨n1, n2, rfl, n3⟩

end Kjson

namespace Kjson

/-- Acceptance derivations of the recursive parser: `PD n mode B i ev B2 j`
holds when, in parse mode `mode`, the buffer `B` at cursor `i` carries a
well-formed fragment whose parse emits the events `ev`, rewrites the buffer
to `B2` and leaves the cursor at `j`.  The size `n` bounds the recursion
depth.  The constructors mirror the branches of `kjson_parse_mid_rec` and
its two loops. -/
inductive PD : Nat → Mode → List Nat → Nat → List KEvent → List Nat → Nat → Prop
  | leaf {B i l B2 j} :
      peek B i ≠ 91 → peek B i ≠ 123 →
      kjson_parse_leaf B i = some (l, B2, j) →
      PD 1 .val B i [.leaf l] B2 j
  | arrE {B i j} : peek B i = 91 → j = skipSpaceIdx B (i + 1) → peek B j = 93 →
      PD 1 .val B i [.cbegin true, .cend true] B (j + 1)
  | arrNE {B i j n ev B2 m} : peek B i = 91 → j = skipSpaceIdx B (i + 1) →
      peek B j ≠ 93 → PD n .arr B j ev B2 m →
      PD (n + 1) .val B i (.cbegin true :: ev) B2 m
  | objE {B i j} : peek B i = 123 → j = skipSpaceIdx B (i + 1) → peek B j = 125 →
      PD 1 .val B i [.cbegin false, .cend false] B (j + 1)
  | objNE {B i j n ev B2 m} : peek B i = 123 → j = skipSpaceIdx B (i + 1) →
      peek B j ≠ 125 → PD n .obj B j ev B2 m →
      PD (n + 1) .val B i (.cbegin false :: ev) B2 m
  | alast {nv B j ev B1 m n} : PD nv .val B j ev B1 m → n = skipSpaceIdx B1 m →
      peek B1 n = 93 →
      PD (nv + 1) .arr B j (.aEntry :: ev ++ [.cend true]) B1 (n + 1)
  | acons {nv B j ev B1 m n na ev2 B2 mf} : PD nv .val B j ev B1 m →
      n = skipSpaceIdx B1 m → peek B1 n = 44 →
      PD na .arr B1 (skipSpaceIdx B1 (n + 1)) ev2 B2 mf →
      PD (nv + na + 1) .arr B j (.aEntry :: ev ++ ev2) B2 mf
  | olast {B j B1 kb kl m n q nv ev B2 r s} :
      kjson_read_string_utf8 B j = some (B1, kb, kl, m) → n = skipSpaceIdx B1 m →
      peek B1 n = 58 → q = skipSpaceIdx B1 (n + 1) → PD nv .val B1 q ev B2 r →
      s = skipSpaceIdx B2 r → peek B2 s = 125 →
      PD (nv + 1) .obj B j (.oEntry kb kl :: ev ++ [.cend false]) B2 (s + 1)
  | ocons {B j B1 kb kl m n q nv ev B2 r s no ev2 B3 mf} :
      kjson_read_string_utf8 B j = some (B1, kb, kl, m) → n = skipSpaceIdx B1 m →
      peek B1 n = 58 → q = skipSpaceIdx B1 (n + 1) → PD nv .val B1 q ev B2 r →
      s = skipSpaceIdx B2 r → peek B2 s = 44 →
      PD no .obj B2 (skipSpaceIdx B2 (s + 1)) ev2 B3 mf →
      PD (nv + no + 1) .obj B j (.oEntry kb kl :: ev ++ ev2) B3 mf

theorem PD_bounds {n : Nat} {mode : Mode} {B : List Nat} {i : Nat}
    {ev : List KEvent} {B' : List Nat} {j : Nat} (h : PD n mode B i ev B' j) :
    i + 1 ≤ j ∧ j ≤ B.length ∧ B'.length = B.length ∧ n ≤ j - i := by
  induction h with
  | leaf h91 h123 hl =>
    obtain ⟨a, b, c, -⟩ := parse_leaf_facts hl
    exact ⟨a, b, c, by omega⟩
  | @arrE B i j h91 hj h93 =>
    subst hj
    have h1 := skipSpaceIdx_ge B (i + 1)
    have h2 : skipSpaceIdx B (i + 1) < B.length := peek_lt_length (by rw [h93]; decide)
    exact ⟨by omega, by omega, rfl, by omega⟩
  | @arrNE B i j n ev B2 m h91 hj h93 hin ih =>
    subst hj
    obtain ⟨a, b, c, d⟩ := ih
    have h1 := skipSpaceIdx_ge B (i + 1)
    exact ⟨by omega, b, c, by omega⟩
  | @objE B i j h123 hj h125 =>
    subst hj
    have h1 := skipSpaceIdx_ge B (i + 1)
    have h2 : skipSpaceIdx B (i + 1) < B.length := peek_lt_length (by rw [h125]; decide)
    exact ⟨by omega, by omega, rfl, by omega⟩
  | @objNE B i j n ev B2 m h123 hj h125 hin ih =>
    subst hj
    obtain ⟨a, b, c, d⟩ := ih
    have h1 := skipSpaceIdx_ge B (i + 1)
    exact ⟨by omega, b, c, by omega⟩
  | @alast nv B j ev B1 m n hv hn h93 ihv =>
    subst hn
    obtain ⟨a, b, c, d⟩ := ihv
    have h1 := skipSpaceIdx_ge B1 m
    have h2 : skipSpaceIdx B1 m < B1.length := peek_lt_length (by rw [h93]; decide)
    exact ⟨by omega, by omega, by omega, by omega⟩
  | @acons nv B j ev B1 m n na ev2 B2 mf hv hn h44 hin ihv ihin =>
    subst hn
    obtain ⟨a, b, c, d⟩ := ihv
    obtain ⟨a2, b2, c2, d2⟩ := ihin
    have h1 := skipSpaceIdx_ge B1 m
    have h3 := skipSpaceIdx_ge B1 (skipSpaceIdx B1 m + 1)
    exact ⟨by omega, by omega, by omega, by omega⟩
  | @olast B j B1 kb kl m n q nv ev B2 r s hrs hn h58 hq hv hs h125 ihv =>
    subst hn hq hs
    obtain ⟨hq34, hbg, hlen, hm1, hm2⟩ := rs_facts hrs
    obtain ⟨a, b, c, d⟩ := ihv
    have h1 := skipSpaceIdx_ge B1 m
    have h2 : skipSpaceIdx B1 m < B1.length := peek_lt_length (by rw [h58]; decide)
    have h3 := skipSpaceIdx_ge B1 (skipSpaceIdx B1 m + 1)
    have h4 := skipSpaceIdx_ge B2 r
    have h5 : skipSpaceIdx B2 r < B2.length := peek_lt_length (by rw [h125]; decide)
    exact ⟨by omega, by omega, by omega, by omega⟩
  | @ocons B j B1 kb kl m n q nv ev B2 r s no ev2 B3 mf hrs hn h58 hq hv hs h44
      hin ihv ihin =>
    subst hn hq hs
    obtain ⟨hq34, hbg, hlen, hm1, hm2⟩ := rs_facts hrs
    obtain ⟨a, b, c, d⟩ := ihv
    obtain ⟨a2, b2, c2, d2⟩ := ihin
    have h1 := skipSpaceIdx_ge B1 m
    have h2 : skipSpaceIdx B1 m < B1.length := peek_lt_length (by rw [h58]; decide)
    have h3 := skipSpaceIdx_ge B1 (skipSpaceIdx B1 m + 1)
    have h4 := skipSpaceIdx_ge B2 r
    have h5 := skipSpaceIdx_ge B2 (skipSpaceIdx B2 r + 1)
    exact ⟨by omega, by omega, by omega, by omega⟩

theorem rec_sound {n : Nat} {mode : Mode} {B : List Nat} {i : Nat}
    {ev : List KEvent} {B' : List Nat} {j : Nat} (h : PD n mode B i ev B' j) :
    ∀ f, n < f → recF f mode B i = some (ev, B', j) := by
  induction h with
  | leaf h91 h123 hl =>
    intro f hf
    cases f with
    | zero => omega
    | succ g =>
      simp only [recF]
      rw [if_neg h91, if_neg h123, hl]
  | arrE h91 hj h93 =>
    intro f hf
    cases f with
    | zero => omega
    | succ g =>
      simp only [recF]
      rw [if_pos h91, ← hj, if_pos h93]
  | arrNE h91 hj h93 hin ih =>
    intro f hf
    cases f with
    | zero => omega
    | succ g =>
      simp only [recF]
      rw [if_pos h91, ← hj, if_neg h93, ih g (by omega)]
      rfl
  | objE h123 hj h125 =>
    intro f hf
    cases f with
    | zero => omega
    | succ g =>
      simp only [recF]
      rw [if_neg (by rw [h123]; decide), if_pos h123, ← hj, if_pos h125]
  | objNE h123 hj h125 hin ih =>
    intro f hf
    cases f with
    | zero => omega
    | succ g =>
      simp only [recF]
      rw [if_neg (by rw [h123]; decide), if_pos h123, ← hj, if_neg h125,
        ih g (by omega)]
      rfl
  | alast hv hn h93 ihv =>
    intro f hf
    cases f with
    | zero => omega
    | succ g =>
      simp only [recF]
      simp only [ihv g (by omega)]
      rw [← hn, if_neg (by rw [h93]; decide), if_pos h93]
  | acons hv hn h44 hin ihv ihin =>
    intro f hf
    cases f with
    | zero => omega
    | succ g =>
      simp only [recF]
      simp only [ihv g (by omega)]
      rw [← hn, if_pos h44, ihin g (by omega)]
      rfl
  | olast hrs hn h58 hq hv hs h125 ihv =>
    intro f hf
    cases f with
    | zero => omega
    | succ g =>
      simp only [recF, hrs]
      rw [← hn, if_pos h58, ← hq]
      simp only [ihv g (by omega)]
      rw [← hs, if_neg (by rw [h125]; decide), if_pos h125]
  | ocons hrs hn h58 hq hv hs h44 hin ihv ihin =>
    intro f hf
    cases f with
    | zero => omega
    | succ g =>
      simp only [recF, hrs]
      rw [← hn, if_pos h58, ← hq]
      simp only [ihv g (by omega)]
      rw [← hs, if_pos h44, ihin g (by omega)]
      rfl

end Kjson

namespace Kjson

/-- Continuation derivations for the stackless parser: `ContD c ka B i d ev B2 j`
holds when, with `d` composites still open, a value has just ended at cursor
`i` of buffer `B` and the remaining input (separators, further members and
the closing brackets) is well-formed, emitting the events `ev`, final buffer
`B2` and final cursor `j`.  The flag `ka` records that the innermost open
composite is an array (`known_in_arr` may be trusted); `c` is a size used
for fuel bounds. -/
inductive ContD : Nat → Bool → List Nat → Nat → Nat → List KEvent → List Nat → Nat → Prop
  | done {ka B i} : ContD 0 ka B i 0 [] B i
  | closeA {c ka ka2 B i d ev B2 j} : peek B (skipSpaceIdx B i) = 93 →
      ContD c ka2 B (skipSpaceIdx B i + 1) d ev B2 j →
      ContD (c + 1) ka B i (d + 1) (.cend true :: ev) B2 j
  | closeO {c ka2 B i d ev B2 j} : peek B (skipSpaceIdx B i) = 125 →
      ContD c ka2 B (skipSpaceIdx B i + 1) d ev B2 j →
      ContD (c + 1) false B i (d + 1) (.cend false :: ev) B2 j
  | nextA {ka nv c B i d ev1 B1 m evr B2 j} : peek B (skipSpaceIdx B i) = 44 →
      PD nv .val B (skipSpaceIdx B (skipSpaceIdx B i + 1)) ev1 B1 m →
      ContD c true B1 m (d + 1) evr B2 j →
      ContD (nv + c + 1) ka B i (d + 1) (.aEntry :: ev1 ++ evr) B2 j
  | nextO {nv c B i d B1 kb kl m ev1 B2 r evr B3 j} :
      peek B (skipSpaceIdx B i) = 44 →
      kjson_read_string_utf8 B (skipSpaceIdx B (skipSpaceIdx B i + 1)) =
        some (B1, kb, kl, m) →
      peek B1 (skipSpaceIdx B1 m) = 58 →
      PD nv .val B1 (skipSpaceIdx B1 (skipSpaceIdx B1 m + 1)) ev1 B2 r →
      ContD c false B2 r (d + 1) evr B3 j →
      ContD (nv + c + 1) false B i (d + 1) (.oEntry kb kl :: ev1 ++ evr) B3 j

/-- A continuation with at least one open composite can be used from the
whitespace-skipped cursor as well: every head constructor only looks at
`skipSpaceIdx B i`, and skipping is idempotent. -/
theorem ContD_shift {c : Nat} {ka : Bool} {B : List Nat} {i d : Nat}
    {ev : List KEvent} {B2 : List Nat} {j : Nat}
    (h : ContD c ka B i (d + 1) ev B2 j) :
    ContD c ka B (skipSpaceIdx B i) (d + 1) ev B2 j := by
  cases h with
  | closeA h93 hin =>
    exact ContD.closeA (by rw [skipSpaceIdx_idem]; exact h93)
      (by rw [skipSpaceIdx_idem]; exact hin)
  | closeO h125 hin =>
    exact ContD.closeO (by rw [skipSpaceIdx_idem]; exact h125)
      (by rw [skipSpaceIdx_idem]; exact hin)
  | nextA h44 hv hin =>
    exact ContD.nextA (by rw [skipSpaceIdx_idem]; exact h44)
      (by rw [skipSpaceIdx_idem]; exact hv) hin
  | nextO h44 hrs h58 hv hin =>
    exact ContD.nextO (by rw [skipSpaceIdx_idem]; exact h44)
      (by rw [skipSpaceIdx_idem]; exact hrs) h58 hv hin

/-- `kjson_parse_leaf` on a quote byte is exactly `kjson_read_string_utf8`. -/
theorem parse_leaf_str {B : List Nat} {i : Nat} {l : KLeaf} {B2 : List Nat}
    {j : Nat} (hq : peek B i = 34) (h : kjson_parse_leaf B i = some (l, B2, j)) :
    ∃ bg len, l = .str bg len ∧ kjson_read_string_utf8 B i = some (B2, bg, len, j) := by
  rw [kjson_parse_leaf, if_pos hq] at h
  cases hrs : kjson_read_string_utf8 B i with
  | none => rw [hrs] at h; exact Option.noConfusion h
  | some q =>
    obtain ⟨Bq, bg, len, r2⟩ := q
    rw [hrs] at h
    simp only [Option.some.injEq, Prod.mk.injEq] at h
    obtain ⟨hl, hB, hj⟩ := h
    subst hB hj hl
    exact ⟨bg, len, rfl, rfl⟩

/-- A well-formed value starting with a quote is a string leaf read by
`kjson_read_string_utf8`. -/
theorem PD_str {nv : Nat} {B : List Nat} {i : Nat} {ev : List KEvent}
    {B2 : List Nat} {m : Nat} (hq : peek B i = 34)
    (h : PD nv .val B i ev B2 m) :
    ∃ sb sl, nv = 1 ∧ ev = [.leaf (.str sb sl)] ∧
      kjson_read_string_utf8 B i = some (B2, sb, sl, m) := by
  cases h with
  | leaf h91 h123 hl =>
    obtain ⟨bg, len, hldef, hrs⟩ := parse_leaf_str hq hl
    exact ⟨bg, len, rfl, by rw [hldef], hrs⟩
  | arrE h91 hj h93 => rw [hq] at h91; exact absurd h91 (by decide)
  | arrNE h91 hj h93 hin => rw [hq] at h91; exact absurd h91 (by decide)
  | objE h123 hj h125 => rw [hq] at h123; exact absurd h123 (by decide)
  | objNE h123 hj h125 hin => rw [hq] at h123; exact absurd h123 (by decide)

end Kjson

namespace Kjson

theorem PD_pos {n : Nat} {mode : Mode} {B : List Nat} {i : Nat}
    {ev : List KEvent} {B' : List Nat} {j : Nat} (h : PD n mode B i ev B' j) :
    1 ≤ n := by
  cases h <;> omega

/-- Characterization of the close loop of `kjson_parse_mid2` against a
continuation derivation: either every open composite ends here and the
parse is over, or the close run stops at a comma in front of a further
member. -/
theorem CL {c : Nat} {ka : Bool} {B : List Nat} {i d : Nat} {ev : List KEvent}
    {B2 : List Nat} {j : Nat} (h : ContD c ka B i d ev B2 j) :
    (mid2close B i d = some (ev, j, 0) ∧ B2 = B)
    ∨ (∃ evc i2 d2 c2 ka2 rest,
        mid2close B i d = some (evc, skipSpaceIdx B i2, d2) ∧
        ContD c2 ka2 B i2 d2 rest B2 j ∧ ev = evc ++ rest ∧ 1 ≤ d2 ∧
        peek B (skipSpaceIdx B i2) = 44 ∧ c2 ≤ c ∧
        (evc = [] → ka2 = ka ∧ c2 = c ∧ i2 = i)) := by
  induction h with
  | done => exact Or.inl ⟨rfl, rfl⟩
  | @closeA c ka ka2 B i d ev B2 j h93 hin ih =>
    simp only [mid2close]
    rw [if_neg (by rw [h93]; decide), if_pos h93]
    rcases ih with ⟨heq, hB⟩ | ⟨evc, i2, d2, c2, ka3, rest, heq, hcont, hev, hd2, h44, hc2, hnil⟩
    · rw [heq]
      exact Or.inl ⟨rfl, hB⟩
    · rw [heq]
      exact Or.inr ⟨.cend true :: evc, i2, d2, c2, ka3, rest, rfl, hcont,
        by rw [hev]; rfl, hd2, h44, by omega, by intro hx; exact absurd hx (by simp)⟩
  | @closeO c ka2 B i d ev B2 j h125 hin ih =>
    simp only [mid2close]
    rw [if_neg (by rw [h125]; decide), if_neg (by rw [h125]; decide), if_pos h125]
    rcases ih with ⟨heq, hB⟩ | ⟨evc, i2, d2, c2, ka3, rest, heq, hcont, hev, hd2, h44, hc2, hnil⟩
    · rw [heq]
      exact Or.inl ⟨rfl, hB⟩
    · rw [heq]
      exact Or.inr ⟨.cend false :: evc, i2, d2, c2, ka3, rest, rfl, hcont,
        by rw [hev]; rfl, hd2, h44, by omega, by intro hx; exact absurd hx (by simp)⟩
  | @nextA ka nv c B i d ev1 B1 m evr B2 j h44 hv hin =>
    simp only [mid2close]
    rw [if_pos h44]
    exact Or.inr ⟨[], i, d + 1, nv + c + 1, ka, .aEntry :: ev1 ++ evr, rfl,
      ContD.nextA h44 hv hin, rfl, by omega, h44, by omega,
      fun _ => ⟨rfl, rfl, rfl⟩⟩
  | @nextO nv c B i d B1 kb kl m ev1 B2 r evr B3 j h44 hrs h58 hv hin =>
    simp only [mid2close]
    rw [if_pos h44]
    exact Or.inr ⟨[], i, d + 1, nv + c + 1, false, .oEntry kb kl :: ev1 ++ evr, rfl,
      ContD.nextO h44 hrs h58 hv hin, rfl, by omega, h44, by omega,
      fun _ => ⟨rfl, rfl, rfl⟩⟩

/-- Split an array-loop derivation into its first element and the
continuation derivation the stackless parser follows afterwards. -/
theorem G_arr : ∀ (n : Nat) {B : List Nat} {j : Nat} {ev : List KEvent}
    {B1 : List Nat} {m : Nat}, PD n .arr B j ev B1 m →
    ∀ {nc : Nat} {ka2 : Bool} {d : Nat} {evc : List KEvent} {B2 : List Nat}
    {jf : Nat}, ContD nc ka2 B1 m d evc B2 jf →
    ∃ nv ev1 Bv mv evr nr, PD nv .val B j ev1 Bv mv ∧
      ev = .aEntry :: ev1 ++ evr ∧
      ContD nr true Bv mv (d + 1) (evr ++ evc) B2 jf ∧ nv + nr ≤ n + nc := by
  intro n
  induction n using Nat.strong_induction_on with
  | _ n ihn =>
    intro B j ev B1 m h nc ka2 d evc B2 jf hc
    cases h with
    | @alast nv _ _ ev0 _ m0 n0 hv hn h93 =>
      subst hn
      refine ⟨nv, ev0, B1, m0, [.cend true], nc + 1, hv, rfl, ?_, by omega⟩
      exact ContD.closeA h93 hc
    | @acons nv _ _ ev0 Bm m0 n0 na ev2 _ _ hv hn h44 hin =>
      subst hn
      obtain ⟨nv2, ev21, Bv2, mv2, evr2, nr2, hpd2, hev2, hcont2, hsz2⟩ :=
        ihn na (by omega) hin hc
      refine ⟨nv, ev0, Bm, m0, ev2, nv2 + nr2 + 1, hv, rfl, ?_, by omega⟩
      have hx : ContD (nv2 + nr2 + 1) true Bm m0 (d + 1)
          (.aEntry :: ev21 ++ (evr2 ++ evc)) B2 jf := ContD.nextA h44 hpd2 hcont2
      rw [hev2]
      simpa [List.append_assoc] using hx

/-- Split an object-loop derivation into its first member (key, colon,
value) and the continuation derivation the stackless parser follows. -/
theorem G_obj : ∀ (n : Nat) {B : List Nat} {j : Nat} {ev : List KEvent}
    {B1f : List Nat} {mf : Nat}, PD n .obj B j ev B1f mf →
    ∀ {nc : Nat} {ka2 : Bool} {d : Nat} {evc : List KEvent} {B2 : List Nat}
    {jf : Nat}, ContD nc ka2 B1f mf d evc B2 jf →
    ∃ B1 kb kl m nv ev1 Bv rv evr nr,
      kjson_read_string_utf8 B j = some (B1, kb, kl, m) ∧
      peek B1 (skipSpaceIdx B1 m) = 58 ∧
      PD nv .val B1 (skipSpaceIdx B1 (skipSpaceIdx B1 m + 1)) ev1 Bv rv ∧
      ev = .oEntry kb kl :: ev1 ++ evr ∧
      ContD nr false Bv rv (d + 1) (evr ++ evc) B2 jf ∧ nv + nr ≤ n + nc := by
  intro n
  induction n using Nat.strong_induction_on with
  | _ n ihn =>
    intro B j ev B1f mf h nc ka2 d evc B2 jf hc
    cases h with
    | @olast _ _ B1 kb kl m n0 q nv ev0 _ r s hrs hn h58 hq hv hs h125 =>
      subst hn hq hs
      refine ⟨B1, kb, kl, m, nv, ev0, B1f, r, [.cend false], nc + 1, hrs, h58, hv,
        rfl, ?_, by omega⟩
      exact ContD.closeO h125 hc
    | @ocons _ _ B1 kb kl m n0 q nv ev0 Bm r s no ev2 _ _ hrs hn h58 hq hv hs h44
        hin =>
      subst hn hq hs
      obtain ⟨B1n, kbn, kln, mn, nv2, ev21, Bv2, rv2, evr2, nr2, hrs2, h582, hpd2,
        hev2, hcont2, hsz2⟩ := ihn no (by omega) hin hc
      refine ⟨B1, kb, kl, m, nv, ev0, Bm, r, ev2, nv2 + nr2 + 1, hrs, h58, hv,
        rfl, ?_, by omega⟩
      have hx : ContD (nv2 + nr2 + 1) false Bm r (d + 1)
          (.oEntry kbn kln :: ev21 ++ (evr2 ++ evc)) B2 jf :=
        ContD.nextO h44 hrs2 h582 hpd2 hcont2
      rw [hev2]
      simpa [List.append_assoc] using hx

end Kjson

namespace Kjson


/-- After a value inside an array context (`ka = true`), the next
non-whitespace byte is a comma or a closing bracket, never a colon. -/
theorem ContD_true_head {c : Nat} {B : List Nat} {i d : Nat} {ev : List KEvent}
    {B2 : List Nat} {j : Nat} (h : ContD c true B i (d + 1) ev B2 j) :
    peek B (skipSpaceIdx B i) = 93 ∨ peek B (skipSpaceIdx B i) = 44 := by
  cases h with
  | closeA h93 hin => exact Or.inl h93
  | nextA h44 hv hin => exact Or.inr h44

theorem mid2_sound_all : ∀ f : Nat,
    (∀ (nv : Nat) (B : List Nat) (i : Nat) (ev1 : List KEvent) (B1 : List Nat)
      (m c : Nat) (ka : Bool) (d : Nat) (evc : List KEvent) (B2 : List Nat)
      (j : Nat), PD nv .val B i ev1 B1 m → ContD c ka B1 m d evc B2 j →
      2 * (nv + c) + 2 ≤ f →
      ∃ K, mid2F f (.loop none) B i d = some (ev1 ++ evc, B2, K) ∧
        (K = j ∨ K = skipSpaceIdx B2 j)) ∧
    (∀ (c : Nat) (ka : Bool) (B : List Nat) (i d : Nat) (ev : List KEvent)
      (B2 : List Nat) (j : Nat) (kia : Bool),
      ContD c ka B i d ev B2 j → (kia = true → ka = true) → 2 * c + 1 ≤ f →
      ∃ K, mid2F f (.after kia false) B i d = some (ev, B2, K) ∧
        (K = j ∨ K = skipSpaceIdx B2 j)) ∧
    (∀ (c : Nat) (B : List Nat) (i d : Nat) (ev : List KEvent) (B2 : List Nat)
      (j : Nat) (sb sl : Nat), ContD c true B i d ev B2 j → 2 * c + 2 ≤ f →
      ∃ K, mid2F f (.loop (some (sb, sl))) B i d =
        some (.leaf (.str sb sl) :: ev, B2, K) ∧
        (K = j ∨ K = skipSpaceIdx B2 j)) := by
  intro f
  induction f using Nat.strong_induction_on with
  | _ f ih =>
    cases f with
    | zero =>
      refine ⟨?_, ?_, ?_⟩
      · intro nv B i ev1 B1 m c ka d evc B2 j hpd hc hf; omega
      · intro c ka B i d ev B2 j kia hc hcom hf; omega
      · intro c B i d ev B2 j sb sl hc hf; omega
    | succ g =>
      obtain ⟨Mg, AVg, M2g⟩ := ih g (by omega)
      refine ⟨?_, ?_, ?_⟩
      · -- the .loop none phase: parse one value, then the continuation
        intro nv B i ev1 B1 m c ka d evc B2 j hpd hc hf
        cases hpd with
        | leaf h91 h123 hl =>
          simp only [mid2F]
          rw [if_neg (by simp [h91, h123])]
          simp only [hl]
          obtain ⟨K, hAV, hK⟩ := AVg c ka B1 m d evc B2 j false hc
            (by intro hx; exact absurd hx (by decide)) (by omega)
          rw [hAV]
          exact ⟨K, rfl, hK⟩
        | @arrE _ _ jj h91 hj h93 =>
          simp only [mid2F]
          rw [if_pos (by simp [h91])]
          rw [if_pos (by rw [← hj, h93, h91])]
          rw [← hj]
          cases d with
          | zero =>
            cases hc with
            | done =>
              obtain ⟨K, hAV, hK⟩ := AVg 0 false B (skipSpaceIdx B (jj + 1)) 0 []
                B (skipSpaceIdx B (jj + 1)) false ContD.done
                (by intro hx; exact absurd hx (by decide)) (by omega)
              rw [hAV]
              refine ⟨K, by simp [h91], Or.inr ?_⟩
              rcases hK with hK | hK
              · exact hK
              · rw [hK, skipSpaceIdx_idem]
          | succ dp =>
            obtain ⟨K, hAV, hK⟩ := AVg c ka B (skipSpaceIdx B (jj + 1)) (dp + 1)
              evc B2 j false (ContD_shift hc)
              (by intro hx; exact absurd hx (by decide)) (by omega)
            rw [hAV]
            exact ⟨K, by simp [h91], hK⟩
        | @arrNE _ _ jj nin evin B2in min h91 hj h93 hin =>
          have hpos := PD_pos hin
          subst hj
          cases g with
          | zero => omega
          | succ g2 =>
            obtain ⟨nv2, ev21, Bv, mv, evr, nr, hpd2, hev2, hcont2, hsz2⟩ :=
              G_arr nin hin hc
            obtain ⟨K, hM, hK⟩ := (ih g2 (by omega)).1 nv2 B
              (skipSpaceIdx B (i + 1)) ev21 Bv mv nr true
              (d + 1) (evr ++ evc) B2 j hpd2 hcont2 (by omega)
            refine ⟨K, ?_, hK⟩
            simp [mid2F, h91, h93, hM, hev2, List.append_assoc]
        | @objE _ _ jj h123 hj h125 =>
          simp only [mid2F]
          rw [if_pos (by simp [h123])]
          rw [if_pos (by rw [← hj, h125, h123])]
          rw [← hj]
          cases d with
          | zero =>
            cases hc with
            | done =>
              obtain ⟨K, hAV, hK⟩ := AVg 0 false B (skipSpaceIdx B (jj + 1)) 0 []
                B (skipSpaceIdx B (jj + 1)) false ContD.done
                (by intro hx; exact absurd hx (by decide)) (by omega)
              rw [hAV]
              refine ⟨K, by simp [h123], Or.inr ?_⟩
              rcases hK with hK | hK
              · exact hK
              · rw [hK, skipSpaceIdx_idem]
          | succ dp =>
            obtain ⟨K, hAV, hK⟩ := AVg c ka B (skipSpaceIdx B (jj + 1)) (dp + 1)
              evc B2 j false (ContD_shift hc)
              (by intro hx; exact absurd hx (by decide)) (by omega)
            rw [hAV]
            exact ⟨K, by simp [h123], hK⟩
        | @objNE _ _ jj nin evin B2in min h123 hj h125 hin =>
          have hpos := PD_pos hin
          subst hj
          cases g with
          | zero => omega
          | succ g2 =>
            obtain ⟨B1k, kb, kl, mk, nv2, ev21, Bv, rv, evr, nr, hrsk, h58k, hpd2,
              hev2, hcont2, hsz2⟩ := G_obj nin hin hc
            have hq34 := (rs_facts hrsk).1
            obtain ⟨K, hM, hK⟩ := (ih g2 (by omega)).1 nv2 B1k
              (skipSpaceIdx B1k (skipSpaceIdx B1k mk + 1)) ev21 Bv rv nr false
              (d + 1) (evr ++ evc) B2 j hpd2 hcont2 (by omega)
            refine ⟨K, ?_, hK⟩
            simp [mid2F, h123, h125, hrsk, hq34, h58k, hM, hev2, List.append_assoc]
      · -- the .after phase: close open composites, then comma and the
        -- array/object entry decision
        intro c ka B i d ev B2 j kia hc hcom hf
        rcases CL hc with ⟨heq, hB⟩ |
          ⟨evc, i2, d2, c2, ka2, rest, heq, hcont, hev, hd2, h44, hc2, hnil⟩
        · subst hB
          refine ⟨j, ?_, Or.inl rfl⟩
          simp [mid2F, heq]
        · cases hcont with
          | done => omega
          | closeA h93x hinx => rw [h93x] at h44; exact absurd h44 (by decide)
          | closeO h125x hinx => rw [h125x] at h44; exact absurd h44 (by decide)
          | @nextA _ nvv cc _ _ dd ev1 Bv mv evr _ _ h44n hv hin =>
            by_cases hdec : (kia && evc.isEmpty
                || !(decide (peek B (skipSpaceIdx B (skipSpaceIdx B i2 + 1)) = 34))) = true
            · obtain ⟨K, hM, hK⟩ := Mg nvv B
                (skipSpaceIdx B (skipSpaceIdx B i2 + 1)) ev1 Bv mv cc true (dd + 1)
                evr B2 j hv hin (by omega)
              refine ⟨K, ?_, hK⟩
              simp [mid2F, heq, h44, hdec, hM, hev, List.append_assoc]
            · simp only [Bool.not_eq_true, Bool.or_eq_false_iff,
                Bool.not_eq_false', decide_eq_true_eq] at hdec
              obtain ⟨hkia2, h34⟩ := hdec
              obtain ⟨sb, sl, hnv1, hev1, hrs⟩ := PD_str h34 hv
              have h58n : peek Bv (skipSpaceIdx Bv mv) ≠ 58 := by
                rcases ContD_true_head hin with hx | hx <;> rw [hx] <;> decide
              obtain ⟨K, hM2, hK⟩ := M2g cc Bv (skipSpaceIdx Bv mv) (dd + 1) evr
                B2 j sb sl (ContD_shift hin) (by omega)
              refine ⟨K, ?_, hK⟩
              simp [mid2F, heq, h44, hkia2, h34, hrs, h58n, hM2, hev, hev1,
                List.append_assoc]
          | @nextO nvn cn _ _ dd B1n kb kl mn ev1 Bvn rvn evr _ _ h44n hrsn h58n
              hvn hinn =>
            have hkia2 : (kia && evc.isEmpty) = false := by
              cases hkk : kia && evc.isEmpty
              · rfl
              · have hkia : kia = true := by revert hkk; cases kia <;> simp
                have hemp : evc = [] := by
                  revert hkk; cases evc <;> simp
                obtain ⟨hka2, -, -⟩ := hnil hemp
                rw [hcom hkia] at hka2
                exact Bool.noConfusion hka2
            have h34 := (rs_facts hrsn).1
            obtain ⟨K, hM, hK⟩ := Mg nvn B1n
              (skipSpaceIdx B1n (skipSpaceIdx B1n mn + 1)) ev1 Bvn rvn cn false
              (dd + 1) evr B2 j hvn hinn (by omega)
            refine ⟨K, ?_, hK⟩
            simp [mid2F, heq, h44, hkia2, h34, hrsn, h58n, hM, hev,
              List.append_assoc]
      · -- the pending-string phase delivers the stored string leaf
        intro c B i d ev B2 j sb sl hc hf
        obtain ⟨K, hAV, hK⟩ := AVg c true B i d ev B2 j true hc (fun _ => rfl)
          (by omega)
        refine ⟨K, ?_, hK⟩
        simp [mid2F, hAV]

end Kjson

namespace Kjson

/-- Soundness of `kjson_parse_mid2` for well-formed top-level values: the
same events and final buffer as the derivation; the final cursor may
additionally have skipped trailing whitespace (top-level empty composite). -/
theorem mid2_sound {n : Nat} {B : List Nat} {i : Nat} {ev : List KEvent}
    {B2 : List Nat} {j : Nat} (h : PD n .val B i ev B2 j) :
    ∃ K, kjson_parse_mid2 B i = some (ev, B2, K) ∧
      (K = j ∨ K = skipSpaceIdx B2 j) := by
  obtain ⟨hij, hjB, hlen, hsz⟩ := PD_bounds h
  obtain ⟨K, hM, hK⟩ := (mid2_sound_all (4 * B.length + 8)).1 n B i ev B2 j 0
    false 0 [] B2 j h ContD.done (by omega)
  rw [List.append_nil] at hM
  exact ⟨K, hM, hK⟩

/-- Soundness of `kjson_parse_mid_rec` for well-formed values, at the
default fuel. -/
theorem rec_sound_top {n : Nat} {B : List Nat} {i : Nat} {ev : List KEvent}
    {B2 : List Nat} {j : Nat} (h : PD n .val B i ev B2 j) :
    kjson_parse_mid_rec B i = some (ev, B2, j) := by
  obtain ⟨hij, hjB, hlen, hsz⟩ := PD_bounds h
  exact rec_sound h (2 * B.length + 2) (by omega)

/-- Every successful run of the recursive parser leaves the cursor directly
after a non-whitespace byte (the value's last byte). -/
theorem rec_lastbyte : ∀ (f : Nat) (mode : Mode) (B : List Nat) (i : Nat)
    (ev : List KEvent) (B2 : List Nat) (j : Nat),
    recF f mode B i = some (ev, B2, j) →
    1 ≤ j ∧ isWsJson (peek B2 (j - 1)) = false := by
  intro f
  induction f with
  | zero => intro mode B i ev B2 j h; exact absurd h (by simp [recF])
  | succ g ih =>
    intro mode B i ev B2 j h
    cases mode with
    | val =>
      simp only [recF] at h
      split at h
      · split at h
        next h93 =>
          simp only [Option.some.injEq, Prod.mk.injEq] at h
          obtain ⟨hev, hB, hj⟩ := h
          subst hB hj
          refine ⟨by omega, ?_⟩
          rw [show skipSpaceIdx B (i + 1) + 1 - 1 = skipSpaceIdx B (i + 1) by omega,
            h93]
          rfl
        next h93 =>
          cases hr : recF g .arr B (skipSpaceIdx B (i + 1)) with
          | none => rw [hr] at h; exact Option.noConfusion h
          | some t =>
            obtain ⟨ev0, B0, j0⟩ := t
            rw [hr] at h
            replace h : some (KEvent.cbegin true :: ev0, B0, j0) = some (ev, B2, j) := h
            simp only [Option.some.injEq, Prod.mk.injEq] at h
            obtain ⟨hev, hB, hj⟩ := h
            subst hB hj
            exact ih _ _ _ _ _ _ hr
      · split at h
        · split at h
          next h125 =>
            simp only [Option.some.injEq, Prod.mk.injEq] at h
            obtain ⟨hev, hB, hj⟩ := h
            subst hB hj
            refine ⟨by omega, ?_⟩
            rw [show skipSpaceIdx B (i + 1) + 1 - 1 = skipSpaceIdx B (i + 1) by omega,
              h125]
            rfl
          next h125 =>
            cases hr : recF g .obj B (skipSpaceIdx B (i + 1)) with
            | none => rw [hr] at h; exact Option.noConfusion h
            | some t =>
              obtain ⟨ev0, B0, j0⟩ := t
              rw [hr] at h
              replace h : some (KEvent.cbegin false :: ev0, B0, j0) = some (ev, B2, j) := h
              simp only [Option.some.injEq, Prod.mk.injEq] at h
              obtain ⟨hev, hB, hj⟩ := h
              subst hB hj
              exact ih _ _ _ _ _ _ hr
        · cases hr : kjson_parse_leaf B i with
          | none => rw [hr] at h; exact Option.noConfusion h
          | some t =>
            obtain ⟨l, B0, j0⟩ := t
            rw [hr] at h
            replace h : some ([KEvent.leaf l], B0, j0) = some (ev, B2, j) := h
            simp only [Option.some.injEq, Prod.mk.injEq] at h
            obtain ⟨hev, hB, hj⟩ := h
            subst hB hj
            obtain ⟨a, b, c, dd⟩ := parse_leaf_facts hr
            exact ⟨by omega, dd⟩
    | arr =>
      simp only [recF] at h
      cases hr : recF g .val B i with
      | none => rw [hr] at h; exact Option.noConfusion h
      | some t =>
        obtain ⟨ev0, B1, m⟩ := t
        simp only [hr] at h
        split at h
        next h44 =>
          cases hr2 : recF g .arr B1 (skipSpaceIdx B1 (skipSpaceIdx B1 m + 1)) with
          | none => rw [hr2] at h; exact Option.noConfusion h
          | some t2 =>
            obtain ⟨ev2, B3, j2⟩ := t2
            rw [hr2] at h
            replace h : some (KEvent.aEntry :: ev0 ++ ev2, B3, j2) = some (ev, B2, j) := h
            simp only [Option.some.injEq, Prod.mk.injEq] at h
            obtain ⟨hev, hB, hj⟩ := h
            subst hB hj
            exact ih _ _ _ _ _ _ hr2
        next h44 =>
          split at h
          next h93 =>
            simp only [Option.some.injEq, Prod.mk.injEq] at h
            obtain ⟨hev, hB, hj⟩ := h
            subst hB hj
            refine ⟨by omega, ?_⟩
            rw [show skipSpaceIdx B1 m + 1 - 1 = skipSpaceIdx B1 m by omega, h93]
            rfl
          next h93 => exact Option.noConfusion h
    | obj =>
      simp only [recF] at h
      cases hr : kjson_read_string_utf8 B i with
      | none => rw [hr] at h; exact Option.noConfusion h
      | some t =>
        obtain ⟨B1, kb, kl, m⟩ := t
        simp only [hr] at h
        split at h
        next h58 =>
          cases hr2 : recF g .val B1 (skipSpaceIdx B1 (skipSpaceIdx B1 m + 1)) with
          | none => rw [hr2] at h; exact Option.noConfusion h
          | some t2 =>
            obtain ⟨ev0, Bv, r⟩ := t2
            simp only [hr2] at h
            split at h
            next h44 =>
              cases hr3 : recF g .obj Bv (skipSpaceIdx Bv (skipSpaceIdx Bv r + 1)) with
              | none => rw [hr3] at h; exact Option.noConfusion h
              | some t3 =>
                obtain ⟨ev3, B3, j3⟩ := t3
                rw [hr3] at h
                replace h : some (KEvent.oEntry kb kl :: ev0 ++ ev3, B3, j3) =
                  some (ev, B2, j) := h
                simp only [Option.some.injEq, Prod.mk.injEq] at h
                obtain ⟨hev, hB, hj⟩ := h
                subst hB hj
                exact ih _ _ _ _ _ _ hr3
            next h44 =>
              split at h
              next h125 =>
                simp only [Option.some.injEq, Prod.mk.injEq] at h
                obtain ⟨hev, hB, hj⟩ := h
                subst hB hj
                refine ⟨by omega, ?_⟩
                rw [show skipSpaceIdx Bv r + 1 - 1 = skipSpaceIdx Bv r by omega, h125]
                rfl
              next h125 => exact Option.noConfusion h
        next h58 => exact Option.noConfusion h

end Kjson

namespace Kjson

theorem toIntmax_small {v : Nat} (h : v ≤ INTMAX_MAX) : toIntmax v = (v : Int) := by
  simp only [INTMAX_MAX] at h
  rw [toIntmax, if_pos (by omega)]
  omega

theorem isDigit_facts {c : Nat} (h : isDigit c = true) : 48 ≤ c ∧ c ≤ 57 := by
  simpa [isDigit] using h

theorem isDigit_not_wsC {c : Nat} (h : isDigit c = true) : isWsC c = false := by
  obtain ⟨h1, h2⟩ := isDigit_facts h
  simp only [isWsC, Bool.or_eq_false_iff, Bool.and_eq_false_iff]
  refine ⟨by simp; omega, Or.inr (by simp; omega)⟩

/-- `strtoumax` on a digit-led subject without overflow just reads the
digit run. -/
theorem strtoumax_digits {B : List Nat} {i : Nat} (hd : isDigit (peek B i) = true)
    (hv : (digitsRun B i).1 ≤ UINTMAX_MAX) :
    strtoumaxAt B i = ((digitsRun B i).1, (digitsRun B i).2, false) := by
  obtain ⟨h1, h2⟩ := isDigit_facts hd
  have hz : skipWsCIdx B i = i :=
    skipWsCIdx_of_not_ws (by rw [isDigit_not_wsC hd]; decide)
  simp only [strtoumaxAt, hz]
  rw [if_neg (by simp; omega :
    ¬ ((decide (peek B i = 43) || decide (peek B i = 45)) = true))]
  rw [if_pos hd]
  rw [if_neg (by omega : ¬ (digitsRun B i).1 > UINTMAX_MAX)]
  rw [if_neg (by omega : ¬ peek B i = 45)]

/-- `strtol` on a digit-led subject in range just reads the digit run. -/
theorem strtol_digits {B : List Nat} {i : Nat} (hd : isDigit (peek B i) = true)
    (hv : (digitsRun B i).1 ≤ 2 ^ 63 - 1) :
    strtolAt B i = (((digitsRun B i).1 : Int), (digitsRun B i).2, false) := by
  obtain ⟨h1, h2⟩ := isDigit_facts hd
  have hz : skipWsCIdx B i = i :=
    skipWsCIdx_of_not_ws (by rw [isDigit_not_wsC hd]; decide)
  simp only [strtolAt, hz]
  rw [if_neg (by simp; omega :
    ¬ ((decide (peek B i = 43) || decide (peek B i = 45)) = true))]
  rw [if_pos hd]
  rw [if_neg (by omega : ¬ peek B i = 45)]
  rw [if_neg (by omega : ¬ (digitsRun B i).1 > 2 ^ 63 - 1)]

/-- `strtoumax` with no digit after whitespace and optional sign does not
convert: value 0, `endptr = nptr`. -/
theorem strtoumax_noconv {B : List Nat} {i : Nat}
    (hd : isDigit (peek B (skipWsCIdx B i)) = false)
    (h43 : peek B (skipWsCIdx B i) ≠ 43) (h45 : peek B (skipWsCIdx B i) ≠ 45) :
    strtoumaxAt B i = (0, i, false) := by
  simp only [strtoumaxAt]
  rw [if_neg (by simp [h43, h45] :
    ¬ ((decide (peek B (skipWsCIdx B i) = 43) ||
        decide (peek B (skipWsCIdx B i) = 45)) = true))]
  rw [if_neg (by simp [hd] : ¬ (isDigit (peek B (skipWsCIdx B i)) = true))]

/-- A run of plain bytes followed by an unescaped control byte makes the
pure decoder fail. -/
theorem decodeStr_plain_ctrl : ∀ (c : Nat) (B : List Nat) (r : Nat),
    (∀ x, r ≤ x → x < r + c → plainByte (peek B x) = true) →
    peek B (r + c) ≤ 31 → decodeStr (B.drop r) = none := by
  intro c
  induction c with
  | zero =>
    intro B r hplain h31
    rcases drop_cases B r with ⟨hnil, hpk⟩ | ⟨rest, hcons, hdrop1, hlen⟩
    · rw [hnil]; rfl
    · rw [hcons]
      exact decodeStr_cons_ctrl _ (by simpa using h31)
  | succ cp ih =>
    intro B r hplain h31
    have hp0 : plainByte (peek B r) = true := hplain r (by omega) (by omega)
    have hne : peek B r ≠ 0 := by
      obtain ⟨-, -, hgt⟩ := plainByte_facts hp0
      omega
    rcases drop_cases B r with ⟨hnil, hpk⟩ | ⟨rest, hcons, hdrop1, hlen⟩
    · rw [hpk] at hne; omega
    · rw [hcons, decodeStr_cons_plain _ hp0, ← hdrop1]
      rw [ih B (r + 1) (fun x hx1 hx2 => hplain x (by omega) (by omega))
        (by rw [show r + 1 + cp = r + (cp + 1) by omega]; exact h31)]
      rfl

/-- Two known bytes at `r+4`, `r+5` pin the shape of `List.drop 4`. -/
theorem drop2_of_peek {r : List Nat} (h4 : peek r 4 = 92) (h5 : peek r 5 = 117) :
    r.drop 4 = 92 :: 117 :: r.drop 6 := by
  have hl4 : 4 < r.length := peek_lt_length (by omega)
  have hl5 : 5 < r.length := peek_lt_length (by omega)
  rw [List.drop_eq_getElem_cons hl4, List.drop_eq_getElem_cons hl5]
  have e4 : r[4] = 92 := by
    have := peek_eq_getElem? r 4
    rw [List.getElem?_eq_getElem hl4] at this
    simpa [h4] using this.symm
  have e5 : r[5] = 117 := by
    have := peek_eq_getElem? r 5
    rw [List.getElem?_eq_getElem hl5] at this
    simpa [h5] using this.symm
  rw [e4, e5]

set_option maxRecDepth 4096 in
theorem surro_mask_hi : ∀ x : Nat, x < 1024 →
    (55296 + x) &&& 4294910975 = (55296 + x) &&& 1023 := by decide

set_option maxRecDepth 4096 in
theorem surro_mask_lo : ∀ x : Nat, x < 1024 →
    (56320 + x) &&& 4294910975 = (56320 + x) &&& 1023 := by decide

end Kjson

namespace Kjson

/-- Claim C1: for every well-formed JSON input — one carrying an acceptance
derivation `PD` of the recursive parser — both `kjson_parse_mid_rec` and
`kjson_parse_mid2` succeed and emit exactly the same event sequence (same
events, same arguments, same order, same rewritten buffer). -/
theorem claim_C1 (n : Nat) (B : List Nat) (i : Nat) (ev : List KEvent)
    (B2 : List Nat) (j : Nat) (h : PD n .val B i ev B2 j) :
    kjson_parse_mid_rec B i = some (ev, B2, j) ∧
    ∃ K, kjson_parse_mid2 B i = some (ev, B2, K) := by
  obtain ⟨K, hm, -⟩ := mid2_sound h
  exact ⟨rec_sound_top h, K, hm⟩

theorem claim_C1_witness :
    kjson_parse_mid_rec [91, 48, 93] 0 =
      some ([.cbegin true, .aEntry, .leaf (.int 0), .cend true], [91, 48, 93], 3) ∧
    ∃ K, kjson_parse_mid2 [91, 48, 93] 0 =
      some ([.cbegin true, .aEntry, .leaf (.int 0), .cend true], [91, 48, 93], K) := by
  have hleaf : PD 1 .val [91, 48, 93] 1 [.leaf (.int 0)] [91, 48, 93] 2 :=
    PD.leaf (by decide) (by decide) (by decide)
  have harr : PD 2 .arr [91, 48, 93] 1
      [.aEntry, .leaf (.int 0), .cend true] [91, 48, 93] 3 :=
    PD.alast hleaf (by decide) (by decide)
  exact claim_C1 3 [91, 48, 93] 0 _ _ 3
    (PD.arrNE (by decide) (by decide) (by decide) harr)

/-- Claim C3: a successful `kjson_read_string_utf8` reports a slice with a
NUL just past it, a length equal to the number of decoded bytes (which the
slice carries), and a cursor just past the closing quote; the empty string
decodes to length 0. -/
theorem claim_C3 :
    (∀ (B : List Nat) (i : Nat) (B2 : List Nat) (bg len r2 : Nat),
      kjson_read_string_utf8 B i = some (B2, bg, len, r2) →
      peek B2 (bg + len) = 0 ∧
      (∃ d rest, decodeStr (B.drop (i + 1)) = some (d, rest) ∧ len = d.length ∧
        ∀ k, k < len → peek B2 (bg + k) = d.getD k 0) ∧
      peek B (r2 - 1) = 34 ∧ bg + len < r2 ∧ r2 ≤ B.length) ∧
    kjson_read_string_utf8 [34, 34] 0 = some ([34, 0], 1, 0, 2) := by
  constructor
  · intro B i B2 bg len r2 h
    obtain ⟨hq, hbg, d, rest, hdec, hlen, g1, g2, g3, g4, g5, g6, g7, g8, g9,
      g10⟩ := rs_inv h
    subst hbg hlen
    exact ⟨g4, ⟨d, rest, hdec, rfl, fun k hk => g3 k hk⟩, g8, g10, g7⟩
  · decide

theorem claim_C3_witness :
    peek [34, 97, 0] (1 + 1) = 0 ∧
    (∃ d rest, decodeStr (([34, 97, 34] : List Nat).drop (0 + 1)) = some (d, rest) ∧
      1 = d.length ∧ ∀ k, k < 1 → peek [34, 97, 0] (1 + k) = d.getD k 0) ∧
    peek [34, 97, 34] (3 - 1) = 34 ∧ 1 + 1 < 3 ∧
    3 ≤ ([34, 97, 34] : List Nat).length :=
  claim_C3.1 [34, 97, 34] 0 [34, 97, 0] 1 1 3 (by decide)

/-- Claim C4 (amended): the largest positive signed value parses exactly in
both readers; the most negative value `INTMAX_MIN` is REJECTED
(`kjson_read_integer` returns false without advancing, `kjson_read_number`
fails), because the code refuses any negative magnitude above `INTMAX_MAX`;
and one beyond `INTMAX_MAX` does NOT make `kjson_read_integer` fail — it
returns true with the value wrapped to negative (read_number reports that
wrapped negative as well), while one beyond `INTMAX_MIN` fails in both. -/
theorem claim_C4 :
    kjson_read_integer
      [57, 50, 50, 51, 51, 55, 50, 48, 51, 54, 56, 53, 52, 55, 55, 53, 56, 48, 55]
      0 = (true, (9223372036854775807 : Int), 19) ∧
    kjson_read_number
      [57, 50, 50, 51, 51, 55, 50, 48, 51, 54, 56, 53, 52, 55, 55, 53, 56, 48, 55]
      0 = some (.int 9223372036854775807, 19) ∧
    kjson_read_integer
      [45, 57, 50, 50, 51, 51, 55, 50, 48, 51, 54, 56, 53, 52, 55, 55, 53, 56, 48, 56]
      0 = (false, (-9223372036854775808 : Int), 1) ∧
    kjson_read_number
      [45, 57, 50, 50, 51, 51, 55, 50, 48, 51, 54, 56, 53, 52, 55, 55, 53, 56, 48, 56]
      0 = none ∧
    kjson_read_integer
      [57, 50, 50, 51, 51, 55, 50, 48, 51, 54, 56, 53, 52, 55, 55, 53, 56, 48, 56]
      0 = (true, (-9223372036854775808 : Int), 19) ∧
    kjson_read_number
      [57, 50, 50, 51, 51, 55, 50, 48, 51, 54, 56, 53, 52, 55, 55, 53, 56, 48, 56]
      0 = some (.int (-9223372036854775808), 19) ∧
    (kjson_read_integer
      [45, 57, 50, 50, 51, 51, 55, 50, 48, 51, 54, 56, 53, 52, 55, 55, 53, 56, 48, 57]
      0).1 = false ∧
    kjson_read_number
      [45, 57, 50, 50, 51, 51, 55, 50, 48, 51, 54, 56, 53, 52, 55, 55, 53, 56, 48, 57]
      0 = none := by
  refine ⟨by decide, by decide, by decide, by decide, by decide, by decide,
    by decide, by decide⟩

theorem claim_C4_cx :
    (kjson_read_integer
      [45, 57, 50, 50, 51, 51, 55, 50, 48, 51, 54, 56, 53, 52, 55, 55, 53, 56, 48, 56]
      0).1 = false ∧
    (kjson_read_integer
      [57, 50, 50, 51, 51, 55, 50, 48, 51, 54, 56, 53, 52, 55, 55, 53, 56, 48, 56]
      0).1 = true := by
  exact ⟨by decide, by decide⟩

/-- Claim C7 (amended): after any successful `kjson_parse_mid_rec` run the
cursor sits just past a non-whitespace byte, so trailing whitespace is never
consumed; `kjson_parse_mid2` emits the same parse on well-formed inputs but
its final cursor may additionally have skipped whitespace following a
top-level empty composite. -/
theorem claim_C7 :
    (∀ (B : List Nat) (i : Nat) (ev : List KEvent) (B2 : List Nat) (j : Nat),
      kjson_parse_mid_rec B i = some (ev, B2, j) →
      1 ≤ j ∧ isWsJson (peek B2 (j - 1)) = false) ∧
    (∀ (n : Nat) (B : List Nat) (i : Nat) (ev : List KEvent) (B2 : List Nat)
      (j : Nat), PD n .val B i ev B2 j →
      ∃ K, kjson_parse_mid2 B i = some (ev, B2, K) ∧
        (K = j ∨ K = skipSpaceIdx B2 j)) :=
  ⟨fun B i ev B2 j h => rec_lastbyte _ _ _ _ _ _ _ h,
   fun n B i ev B2 j h => mid2_sound h⟩

theorem claim_C7_cx :
    kjson_parse_mid2 [91, 93, 32] 0 =
      some ([.cbegin true, .cend true], [91, 93, 32], 3) ∧
    isWsJson (peek [91, 93, 32] (3 - 1)) = true ∧
    kjson_parse_mid_rec [91, 93, 32] 0 =
      some ([.cbegin true, .cend true], [91, 93, 32], 2) := by
  exact ⟨by decide, by decide, by decide⟩

theorem claim_C7_witness :
    1 ≤ 3 ∧ isWsJson (peek [91, 48, 93] (3 - 1)) = false :=
  claim_C7.1 [91, 48, 93] 0 [.cbegin true, .aEntry, .leaf (.int 0), .cend true]
    [91, 48, 93] 3 (by decide)

/-- Claim C10: on the mismatched input `[1}` the stackless parser succeeds,
emitting begin(array) but end(object), while the recursive parser fails:
`kjson_parse_mid2` never checks that a closing bracket matches the composite
it closes. -/
theorem claim_C10 :
    kjson_parse_mid2 [91, 49, 125] 0 =
      some ([.cbegin true, .aEntry, .leaf (.int 1), .cend false], [91, 49, 125], 3) ∧
    kjson_parse_mid_rec [91, 49, 125] 0 = none := by
  exact ⟨by decide, by decide⟩

end Kjson

namespace Kjson

/-- Claim C9 (amended): the recursive parser does NOT skip leading
whitespace before dispatching.  When the cursor is on a whitespace byte and
the first non-whitespace byte starts a composite, string, or
null/true/false literal, the parse fails (only numbers survive, through the
whitespace skip inside `strtoumax`). -/
theorem claim_C9 (B : List Nat) (i : Nat)
    (hws : isWsJson (peek B i) = true)
    (hd : peek B (skipWsCIdx B i) = 91 ∨ peek B (skipWsCIdx B i) = 123 ∨
      peek B (skipWsCIdx B i) = 34 ∨ peek B (skipWsCIdx B i) = 110 ∨
      peek B (skipWsCIdx B i) = 116 ∨ peek B (skipWsCIdx B i) = 102) :
    kjson_parse_mid_rec B i = none := by
  have hwsn : peek B i = 9 ∨ peek B i = 13 ∨ peek B i = 10 ∨ peek B i = 32 := by
    have := hws
    simp only [isWsJson, Bool.or_eq_true, decide_eq_true_eq] at this
    tauto
  have hleaf : kjson_parse_leaf B i = none := by
    rw [kjson_parse_leaf]
    rw [if_neg (by omega : ¬ peek B i = 34)]
    rw [if_neg (by
      simp only [matchesAt, Bool.and_eq_true, decide_eq_true_eq]
      intro hx
      omega)]
    rw [if_neg (by
      simp only [matchesAt, Bool.and_eq_true, decide_eq_true_eq]
      intro hx
      omega)]
    rw [if_neg (by
      simp only [matchesAt, Bool.and_eq_true, decide_eq_true_eq]
      intro hx
      omega)]
    have hnum : kjson_read_number B i = none := by
      have hnc : strtoumaxAt B i = (0, i, false) :=
        strtoumax_noconv (by simp [isDigit]; omega) (by omega) (by omega)
      simp only [kjson_read_number]
      rw [if_neg (by omega : ¬ peek B i = 45)]
      rw [if_pos (by rw [hnc]; simp)]
    rw [hnum]
  rw [kjson_parse_mid_rec]
  rw [show 2 * B.length + 2 = (2 * B.length + 1) + 1 from rfl]
  simp only [recF]
  rw [if_neg (by omega : ¬ peek B i = 91), if_neg (by omega : ¬ peek B i = 123),
    hleaf]

theorem claim_C9_cx :
    kjson_parse_mid_rec [32, 91, 93] 0 = none ∧
    kjson_parse_mid_rec [91, 93] 0 =
      some ([.cbegin true, .cend true], [91, 93], 2) := by
  exact ⟨by decide, by decide⟩

theorem claim_C9_witness : kjson_parse_mid_rec [32, 91, 93] 0 = none :=
  claim_C9 [32, 91, 93] 0 (by decide) (Or.inl (by decide))

end Kjson

namespace Kjson

set_option maxRecDepth 8192 in
/-- Claim C5: an unescaped control byte (≤ 0x1F) inside a string token makes
`kjson_read_string_utf8` fail; the word-at-a-time lane tests detect exactly
the quote/backslash/control bytes that the byte-wise path dispatches on; and
DEL (0x7F) passes through unchanged. -/
theorem claim_C5 :
    (∀ (B : List Nat) (i k : Nat), peek B i = 34 → i < k →
      (∀ x, i < x → x < k → plainByte (peek B x) = true) →
      peek B k ≤ 31 → kjson_read_string_utf8 B i = none) ∧
    (∀ b : Nat, b < 256 →
      ((swarEscLane b = true) ↔ (b = 34 ∨ b = 92)) ∧
      ((swarCtrlLane b = true) ↔ b ≤ 31)) ∧
    kjson_read_string_utf8 [34, 127, 34] 0 = some ([34, 127, 0], 1, 1, 3) := by
  refine ⟨?_, by decide, by decide⟩
  intro B i k hq hik hplain hctrl
  refine rs_decode_none hq (decodeStr_plain_ctrl (k - (i + 1)) B (i + 1) ?_ ?_)
  · intro x hx1 hx2
    exact hplain x (by omega) (by omega)
  · rw [show i + 1 + (k - (i + 1)) = k by omega]
    exact hctrl

theorem claim_C5_witness : kjson_read_string_utf8 [34, 97, 31, 34] 0 = none :=
  claim_C5.1 [34, 97, 31, 34] 0 2 (by decide) (by omega)
    (fun x h1 h2 => by
      have hx : x = 1 := by omega
      subst hx
      decide)
    (by decide)

/-- The exponent branch of `kjson_read_number` on an unsigned digit run:
base-2 `ldexp` semantics for any exponent `strtol` converts in range,
the optional exponent sign included. -/
theorem read_number_exp_pos :
    ∀ (B : List Nat) (i : Nat) (e : Int) (te : Nat),
      isDigit (peek B i) = true → (digitsRun B i).1 ≤ UINTMAX_MAX →
      peek B (digitsRun B i).2 ≠ 46 →
      (peek B (digitsRun B i).2 = 69 ∨ peek B (digitsRun B i).2 = 101) →
      strtolAt B ((digitsRun B i).2 + 1) = (e, te, false) →
      kjson_read_number B i =
        some (.dbl (((digitsRun B i).1 : ℚ) * (2 : ℚ) ^ e), te) := by
  intro B i e te hd hv h46 hE hstl
  obtain ⟨hd1, hd2⟩ := isDigit_facts hd
  have h45 : ¬ peek B i = 45 := by omega
  have hprog := digitsRun_progress hd
  simp only [kjson_read_number]
  rw [if_neg h45]
  rw [strtoumax_digits hd hv]
  rw [if_neg (by simp; omega)]
  rw [if_neg h46]
  rw [if_pos (by simp [hE] : (decide (peek B (digitsRun B i).2 = 69) ||
    decide (peek B (digitsRun B i).2 = 101)) = true)]
  rw [hstl]
  rw [if_neg (by simp)]
  rw [if_pos (by omega : peek B i ≠ 45)]
  rfl

/-- The exponent branch of `kjson_read_number` on a `-`-signed digit run,
again for any exponent `strtol` converts in range. -/
theorem read_number_exp_neg :
    ∀ (B : List Nat) (i : Nat) (e : Int) (te : Nat), peek B i = 45 →
      isDigit (peek B (i + 1)) = true → (digitsRun B (i + 1)).1 ≤ UINTMAX_MAX →
      peek B (digitsRun B (i + 1)).2 ≠ 46 →
      (peek B (digitsRun B (i + 1)).2 = 69 ∨ peek B (digitsRun B (i + 1)).2 = 101) →
      strtolAt B ((digitsRun B (i + 1)).2 + 1) = (e, te, false) →
      kjson_read_number B i =
        some (.dbl (-((digitsRun B (i + 1)).1 : ℚ) * (2 : ℚ) ^ e), te) := by
  intro B i e te h45 hd hv h46 hE hstl
  have hprog := digitsRun_progress hd
  simp only [kjson_read_number]
  rw [if_pos h45]
  rw [strtoumax_digits hd hv]
  rw [if_neg (by simp; omega)]
  rw [if_neg h46]
  rw [if_pos (by simp [hE] : (decide (peek B (digitsRun B (i + 1)).2 = 69) ||
    decide (peek B (digitsRun B (i + 1)).2 = 101)) = true)]
  rw [hstl]
  rw [if_neg (by simp)]
  rw [if_neg (by simp [h45] : ¬ peek B i ≠ 45)]
  rfl

/-- Claim C6: after a digit run `v` and an `E`/`e` exponent — a possibly
signed decimal integer `e` read by `strtol` — `kjson_read_number`
classifies the leaf as double with value `(±v) * 2 ^ e` (the base-2 `ldexp`
semantics of the source), not `(±v) * 10 ^ e`: witnessed by `1e3` = 8 (not
1000), `1e-3` = 1/8 (not 1/1000), `1e+3` = 8 and `-2e-1` = -1. -/
theorem claim_C6 :
    (∀ (B : List Nat) (i : Nat) (e : Int) (te : Nat),
      isDigit (peek B i) = true → (digitsRun B i).1 ≤ UINTMAX_MAX →
      peek B (digitsRun B i).2 ≠ 46 →
      (peek B (digitsRun B i).2 = 69 ∨ peek B (digitsRun B i).2 = 101) →
      strtolAt B ((digitsRun B i).2 + 1) = (e, te, false) →
      kjson_read_number B i =
        some (.dbl (((digitsRun B i).1 : ℚ) * (2 : ℚ) ^ e), te)) ∧
    (∀ (B : List Nat) (i : Nat) (e : Int) (te : Nat), peek B i = 45 →
      isDigit (peek B (i + 1)) = true → (digitsRun B (i + 1)).1 ≤ UINTMAX_MAX →
      peek B (digitsRun B (i + 1)).2 ≠ 46 →
      (peek B (digitsRun B (i + 1)).2 = 69 ∨ peek B (digitsRun B (i + 1)).2 = 101) →
      strtolAt B ((digitsRun B (i + 1)).2 + 1) = (e, te, false) →
      kjson_read_number B i =
        some (.dbl (-((digitsRun B (i + 1)).1 : ℚ) * (2 : ℚ) ^ e), te)) ∧
    (kjson_read_number [49, 101, 51] 0 = some (.dbl 8, 3) ∧
     kjson_read_number [49, 101, 45, 51] 0 = some (.dbl (1 / 8), 4) ∧
     kjson_read_number [49, 101, 43, 51] 0 = some (.dbl 8, 4) ∧
     kjson_read_number [45, 50, 101, 45, 49] 0 = some (.dbl (-1), 5) ∧
     (8 : ℚ) ≠ 1000 ∧ ((1 : ℚ) / 8) ≠ 1 / 1000) := by
  refine ⟨read_number_exp_pos, read_number_exp_neg, ?_, ?_, ?_, ?_,
    by norm_num, by norm_num⟩
  · have h := read_number_exp_pos [49, 101, 51] 0 3 3 (by decide) (by decide)
      (by decide) (Or.inr (by decide)) (by decide)
    have e1 : digitsRun [49, 101, 51] 0 = (1, 1) := by decide
    rw [h]
    norm_num [e1]
  · have h := read_number_exp_pos [49, 101, 45, 51] 0 (-3) 4 (by decide)
      (by decide) (by decide) (Or.inr (by decide)) (by decide)
    have e1 : digitsRun [49, 101, 45, 51] 0 = (1, 1) := by decide
    rw [h]
    norm_num [e1]
  · have h := read_number_exp_pos [49, 101, 43, 51] 0 3 4 (by decide)
      (by decide) (by decide) (Or.inr (by decide)) (by decide)
    have e1 : digitsRun [49, 101, 43, 51] 0 = (1, 1) := by decide
    rw [h]
    norm_num [e1]
  · have h := read_number_exp_neg [45, 50, 101, 45, 49] 0 (-1) 5 (by decide)
      (by decide) (by decide) (by decide) (Or.inr (by decide)) (by decide)
    have e1 : digitsRun [45, 50, 101, 45, 49] 1 = (2, 2) := by decide
    rw [h]
    norm_num [e1]

theorem claim_C6_witness :
    kjson_read_number [51, 101, 45, 50] 0 = some (.dbl (3 / 4), 4) := by
  have h := claim_C6.1 [51, 101, 45, 50] 0 (-2) 4 (by decide) (by decide)
    (by decide) (Or.inr (by decide)) (by decide)
  have e1 : digitsRun [51, 101, 45, 50] 0 = (3, 1) := by decide
  rw [h]
  norm_num [e1]

end Kjson

namespace Kjson

/-- Unfold `escaped` on `\u` down to the high-surrogate branch. -/
theorem escaped_u_hi {r : List Nat} {U : Nat} (hx : hex4 r = some U)
    (hU1 : 55296 ≤ U) (hU2 : U < 56320) :
    escaped (117 :: r) =
      (if (117 :: r).getD 5 0 = 92 && (117 :: r).getD 6 0 = 117 then
        match hex4 ((117 :: r).drop 7) with
        | none => none
        | some lo =>
          if 56320 ≤ lo && lo < 57344 then
            some ([240 ||| (((U &&& 4294910975) <<< 10 ||| (lo &&& 4294910975)) + 65536) >>> 18,
                   128 ||| ((((U &&& 4294910975) <<< 10 ||| (lo &&& 4294910975)) + 65536) >>> 12) &&& 63,
                   128 ||| ((((U &&& 4294910975) <<< 10 ||| (lo &&& 4294910975)) + 65536) >>> 6) &&& 63,
                   128 ||| (((U &&& 4294910975) <<< 10 ||| (lo &&& 4294910975)) + 65536) &&& 63], 11)
          else none
      else none) := by
  simp only [escaped, escSubst1]
  simp [hx, show ¬ U < 128 from by omega, show ¬ U < 2048 from by omega,
    show ¬ U < 55296 from by omega, show ¬ 57344 ≤ U from by omega, hU2]

/-- Claim C2: a `\uXXXX` escape whose value is a high surrogate must be
followed immediately by `\uYYYY` with a low surrogate, in which case the
decoder emits the four UTF-8 bytes of `((U & 0x3FF) << 10 | (V & 0x3FF)) +
0x10000`; a high surrogate without a proper low surrogate, and a lone low
surrogate, each fail; and `"𝄞"` decodes to F0 9D 84 9E. -/
theorem claim_C2 :
    (∀ (r : List Nat) (U V : Nat) (r2 : List Nat),
      hex4 r = some U → 55296 ≤ U → U < 56320 →
      r.drop 4 = 92 :: 117 :: r2 → hex4 r2 = some V → 56320 ≤ V → V < 57344 →
      escaped (117 :: r) =
        some ([240 ||| (((U &&& 1023) <<< 10 ||| (V &&& 1023)) + 65536) >>> 18,
               128 ||| ((((U &&& 1023) <<< 10 ||| (V &&& 1023)) + 65536) >>> 12) &&& 63,
               128 ||| ((((U &&& 1023) <<< 10 ||| (V &&& 1023)) + 65536) >>> 6) &&& 63,
               128 ||| (((U &&& 1023) <<< 10 ||| (V &&& 1023)) + 65536) &&& 63], 11)) ∧
    (∀ (r : List Nat) (U : Nat),
      hex4 r = some U → 55296 ≤ U → U < 56320 →
      (¬ ∃ V r2, r.drop 4 = 92 :: 117 :: r2 ∧ hex4 r2 = some V ∧
        56320 ≤ V ∧ V < 57344) →
      escaped (117 :: r) = none) ∧
    (∀ (r : List Nat) (U : Nat),
      hex4 r = some U → 56320 ≤ U → U < 57344 →
      escaped (117 :: r) = none) ∧
    kjson_read_string_utf8 [34, 92, 117, 68, 56, 51, 52, 92, 117, 68, 68, 49, 69, 34]
      0 = some ([34, 240, 157, 132, 158, 0, 52, 92, 117, 68, 68, 49, 69, 34], 1, 4, 14) := by
  refine ⟨?_, ?_, ?_, by decide⟩
  · intro r U V r2 hx hU1 hU2 hdrop hx2 hV1 hV2
    have hU : U &&& 4294910975 = U &&& 1023 := by
      have h := surro_mask_hi (U - 55296) (by omega)
      rw [show 55296 + (U - 55296) = U by omega] at h
      have h2 := surro_mask_hi (U - 55296) (by omega)
      exact h
    have hV : V &&& 4294910975 = V &&& 1023 := by
      have h := surro_mask_lo (V - 56320) (by omega)
      rw [show 56320 + (V - 56320) = V by omega] at h
      exact h
    have h5 : peek r 4 = 92 := by
      have hp := peek_drop r 4 0
      rw [hdrop] at hp
      simpa using hp.symm
    have h6 : peek r 5 = 117 := by
      have hp := peek_drop r 4 1
      rw [hdrop] at hp
      simpa using hp.symm
    have hd7 : (117 :: r).drop 7 = r2 := by
      rw [show (117 :: r).drop 7 = r.drop 6 from rfl]
      rw [show (6 : Nat) = 4 + 2 from rfl, ← List.drop_drop, hdrop]
      rfl
    rw [escaped_u_hi hx hU1 hU2]
    rw [if_pos (by
      simp only [show (117 :: r).getD 5 0 = peek r 4 from rfl,
        show (117 :: r).getD 6 0 = peek r 5 from rfl, h5, h6]
      decide)]
    rw [hd7]
    simp [hx2, hV1, hV2, hU, hV]
  · intro r U hx hU1 hU2 hnp
    rw [escaped_u_hi hx hU1 hU2]
    by_cases hgd : ((117 :: r).getD 5 0 = 92 ∧ (117 :: r).getD 6 0 = 117)
    · rw [if_pos (by
        simp only [Bool.and_eq_true, decide_eq_true_eq]
        exact ⟨hgd.1, hgd.2⟩)]
      have h5 : peek r 4 = 92 := hgd.1
      have h6 : peek r 5 = 117 := hgd.2
      have hdrop : r.drop 4 = 92 :: 117 :: r.drop 6 := drop2_of_peek h5 h6
      have hd7 : (117 :: r).drop 7 = r.drop 6 := rfl
      rw [hd7]
      cases hx2 : hex4 (r.drop 6) with
      | none => rfl
      | some V =>
        by_cases hr2 : 56320 ≤ V ∧ V < 57344
        · exact absurd ⟨V, r.drop 6, hdrop, hx2, hr2.1, hr2.2⟩ hnp
        · rcases not_and_or.mp hr2 with hcase | hcase <;> simp [hcase]
    · rw [if_neg (by
        intro hcon
        simp only [Bool.and_eq_true, decide_eq_true_eq] at hcon
        exact hgd hcon)]
  · intro r U hx hU1 hU2
    simp only [escaped, escSubst1]
    simp [hx, show ¬ U < 128 from by omega, show ¬ U < 2048 from by omega,
      show ¬ U < 55296 from by omega, show ¬ 57344 ≤ U from by omega,
      show ¬ U < 56320 from by omega]

theorem claim_C2_witness :
    escaped (117 :: [68, 56, 51, 52, 92, 117, 68, 68, 49, 69]) =
      some ([240, 157, 132, 158], 11) := by
  have h := claim_C2.1 [68, 56, 51, 52, 92, 117, 68, 68, 49, 69] 55348 56606
    [68, 68, 49, 69] (by decide) (by decide) (by decide) (by decide) (by decide)
    (by decide) (by decide)
  rw [h]
  decide

end Kjson

namespace Kjson

/-- Claim C8 (amended): after the optional `-`, a leading `0` short-circuits
(value 0, cursor past the `0`, success iff the next byte is not `.`); a
non-zero-led digit run is consumed by `strtoumax` (negative magnitudes above
`INTMAX_MAX` fail, otherwise success iff the byte after the run is not `.`,
with the signed value of the run); but — contrary to the claim — when no
digit follows the optional sign the function does NOT return false: it
accepts with value 0 (`strtoumax` converts nothing and the endptr check is
missing), and `strtoumax` even skips leading whitespace. -/
theorem claim_C8 :
    (∀ (B : List Nat) (i i1 : Nat),
      i1 = (if peek B i = 45 then i + 1 else i) → peek B i1 = 48 →
      ((kjson_read_integer B i).1 = true ↔ ¬ peek B (i1 + 1) = 46) ∧
      (kjson_read_integer B i).2 = (0, i1 + 1)) ∧
    (∀ (B : List Nat) (i i1 : Nat),
      i1 = (if peek B i = 45 then i + 1 else i) →
      isDigit (peek B i1) = true → peek B i1 ≠ 48 →
      (digitsRun B i1).1 ≤ INTMAX_MAX →
      ((kjson_read_integer B i).1 = true ↔
        ¬ peek B (digitsRun B i1).2 = 46) ∧
      (kjson_read_integer B i).2.1 =
        (if peek B i = 45 then -((digitsRun B i1).1 : Int)
         else ((digitsRun B i1).1 : Int)) ∧
      (kjson_read_integer B i).2.2 = (digitsRun B i1).2) ∧
    (kjson_read_integer [120] 0 = (true, 0, 0) ∧
     kjson_read_integer [32, 49] 0 = (true, 1, 2)) := by
  refine ⟨?_, ?_, by decide, by decide⟩
  · intro B i i1 hi1 h48
    subst hi1
    simp only [kjson_read_integer]
    rw [if_pos h48]
    simp
  · intro B i i1 hi1 hd h48 hle
    have hvmax : (digitsRun B i1).1 ≤ UINTMAX_MAX := by
      simp only [INTMAX_MAX] at hle
      simp only [UINTMAX_MAX]
      omega
    simp only [kjson_read_integer]
    rw [← hi1]
    rw [if_neg h48]
    rw [strtoumax_digits hd hvmax]
    by_cases h45 : peek B i = 45
    · rw [if_neg (by simp [h45] : ¬ peek B i ≠ 45)]
      rw [if_neg (by omega : ¬ (digitsRun B i1).1 > INTMAX_MAX)]
      refine ⟨by simp, ?_, rfl⟩
      rw [if_pos h45, toIntmax_small hle]
    · rw [if_pos (by simp [h45] : peek B i ≠ 45)]
      refine ⟨by simp, ?_, rfl⟩
      rw [if_neg h45, toIntmax_small hle]

theorem claim_C8_cx : (kjson_read_integer [120] 0).1 = true := by decide

theorem claim_C8_witness :
    (((kjson_read_integer [45, 48, 53] 0).1 = true) ↔
      ¬ peek [45, 48, 53] (1 + 1) = 46) ∧
    (kjson_read_integer [45, 48, 53] 0).2 = (0, 1 + 1) :=
  claim_C8.1 [45, 48, 53] 0 1 (by decide) (by decide)

end Kjson
